import Mathlib

/-!
Verification development for the pydicom character-set engine
(`pydicom/charset.py`).

The Python source is embedded shallowly:

* byte strings are `List Nat` (each entry a byte value, < 256 in practice);
* unicode strings are `List Nat` (each entry a unicode code point);
* the global `config.enforce_valid_values` flag is threaded through as an
  explicit `strict : Bool` parameter;
* `warnings.warn` calls are modelled by returning a `List String` of warning
  messages next to the result (messages are abbreviated, their exact text is
  not load bearing);
* Python exceptions are modelled by the `PyErr` error type together with
  `Except`; `UnicodeError` is a subclass of `ValueError` in Python, and
  `LookupError` and `IndexError` are unrelated to both, which the
  `isUnicodeError` / `isValueError` predicates reproduce.

The actual byte transcoding is delegated by the source to the Python codec
registry, which is outside the repository.  That registry is modelled by
`lookupCodec`: it contains faithful models of the codecs the claims exercise
(`iso8859`/`latin_1` as latin-1, `shift_jis` on the ASCII, half-width
katakana and hiragana planes, and `iso2022_jp` on the ASCII and hiragana
planes); every other name is treated as unknown.  `codec_lookup_exists`
separately models bare existence of a name in the Python codec registry
(the `codecs.lookup` probe used by `convert_encodings`).
-/

namespace PydicomCharset

/-- Model of the Python exception classes raised by the source.
`unicodeEncodeError` carries the codec name and the `start`/`end` character
range of the failure, mirroring the attributes the source reads. -/
inductive PyErr where
  | unicodeEncodeError (enc : String) (start stop : Nat)
  | unicodeDecodeError (enc : String)
  | lookupError (enc : String)
  | valueError
  | indexError
  deriving Repr, DecidableEq

instance {ε α : Type} [DecidableEq ε] [DecidableEq α] : DecidableEq (Except ε α) := fun x y =>
  match x, y with
  | .ok a, .ok b =>
    match decEq a b with
    | .isTrue h => .isTrue (by rw [h])
    | .isFalse h => .isFalse (fun hxy => h (Except.ok.inj hxy))
  | .error a, .error b =>
    match decEq a b with
    | .isTrue h => .isTrue (by rw [h])
    | .isFalse h => .isFalse (fun hxy => h (Except.error.inj hxy))
  | .ok _, .error _ => .isFalse (fun hxy => Except.noConfusion hxy)
  | .error _, .ok _ => .isFalse (fun hxy => Except.noConfusion hxy)

/-- Python: `isinstance(e, UnicodeError)`. -/
def PyErr.isUnicodeError : PyErr → Bool
  | .unicodeEncodeError _ _ _ => true
  | .unicodeDecodeError _ => true
  | _ => false

/-- Python: `isinstance(e, ValueError)`; `UnicodeError` is a subclass of
`ValueError`. -/
def PyErr.isValueError : PyErr → Bool
  | .unicodeEncodeError _ _ _ => true
  | .unicodeDecodeError _ => true
  | .valueError => true
  | _ => false

/-- The `start` attribute of a `UnicodeError`; only unicode errors carry it
(the source only reads it on such errors). -/
def PyErr.startIdx : PyErr → Nat
  | .unicodeEncodeError _ s _ => s
  | _ => 0

/-- The `errors` argument of Python `str.encode`; the repository only ever
passes the values `strict` and `replace`. -/
inductive ErrorsParam where
  | strict
  | replace
  deriving Repr, DecidableEq

/-- Model of one Python codec: strict whole-string encode (failure returns
the start/end character range of the first failing character), encode with
`errors=replace`, strict decode, and decode with `errors=replace`. -/
structure PyCodec where
  encS : List Nat → Except (Nat × Nat) (List Nat)
  encR : List Nat → List Nat
  dec : List Nat → Option (List Nat)
  decR : List Nat → List Nat

/-- Strict whole-string encoding of a character-map codec given its
per-character encoder: fails at the first unencodable character.  The end
index of the failing range is modelled as start + 1; the repository only
ever reads the start index of such errors. -/
def encCharsStrict (f : Nat → Option (List Nat)) : List Nat → Nat → Except (Nat × Nat) (List Nat)
  | [], _ => .ok []
  | c :: cs, i =>
    match f c with
    | none => .error (i, i + 1)
    | some bs => (encCharsStrict f cs (i + 1)).map (fun t => bs ++ t)

/-- `errors=replace` whole-string encoding of a character-map codec: each
unencodable character becomes a question-mark byte. -/
def encCharsReplace (f : Nat → Option (List Nat)) : List Nat → List Nat
  | [] => []
  | c :: cs =>
    match f c with
    | none => 63 :: encCharsReplace f cs
    | some bs => bs ++ encCharsReplace f cs

/-- Model of the Python latin-1 codec (the names `iso8859` and `latin_1`
both resolve to it): code points below 256 map to the identical byte, and
every byte decodes to the identical code point. -/
def latin1Codec : PyCodec where
  encS v := encCharsStrict (fun c => if c < 256 then some [c] else none) v 0
  encR := encCharsReplace (fun c => if c < 256 then some [c] else none)
  dec bs := some bs
  decR bs := bs

/-- Per-character encoder of the modelled shift_jis planes: ASCII maps to a
single identical byte, half-width katakana U+FF61..U+FF9F to the single
bytes 0xA1..0xDF, and hiragana U+3041..U+3093 to the two-byte sequences
0x82 0x9F .. 0x82 0xF1 (the exact CPython shift_jis mapping on these
planes); everything else is unencodable in the model. -/
def sjisEncChar (c : Nat) : Option (List Nat) :=
  if c < 128 then some [c]
  else if 0xFF61 ≤ c ∧ c ≤ 0xFF9F then some [c - 0xFF61 + 0xA1]
  else if 0x3041 ≤ c ∧ c ≤ 0x3093 then some [0x82, c - 0x3041 + 0x9F]
  else none

/-- Strict decoder of the modelled shift_jis planes. -/
def sjisDec : List Nat → Option (List Nat)
  | [] => some []
  | b :: rest =>
    if b < 128 then (sjisDec rest).map (fun t => b :: t)
    else if 0xA1 ≤ b ∧ b ≤ 0xDF then (sjisDec rest).map (fun t => (0xFF61 + b - 0xA1) :: t)
    else if b = 0x82 then
      match rest with
      | b2 :: rest2 =>
        if 0x9F ≤ b2 ∧ b2 ≤ 0xF1 then (sjisDec rest2).map (fun t => (0x3041 + b2 - 0x9F) :: t)
        else none
      | [] => none
    else none

/-- `errors=replace` decoder of the modelled shift_jis planes: an
undecodable byte becomes U+FFFD and decoding resumes at the next byte. -/
def sjisDecReplace : List Nat → List Nat
  | [] => []
  | b :: rest =>
    if b < 128 then b :: sjisDecReplace rest
    else if 0xA1 ≤ b ∧ b ≤ 0xDF then (0xFF61 + b - 0xA1) :: sjisDecReplace rest
    else if b = 0x82 then
      match rest with
      | b2 :: rest2 =>
        if 0x9F ≤ b2 ∧ b2 ≤ 0xF1 then (0x3041 + b2 - 0x9F) :: sjisDecReplace rest2
        else 0xFFFD :: sjisDecReplace (b2 :: rest2)
      | [] => [0xFFFD]
    else 0xFFFD :: sjisDecReplace rest
termination_by l => l.length
decreasing_by
  all_goals simp only [List.length_cons]
  all_goals omega

/-- Model of the Python shift_jis codec on the modelled planes. -/
def sjisCodec : PyCodec where
  encS v := encCharsStrict sjisEncChar v 0
  encR := encCharsReplace sjisEncChar
  dec := sjisDec
  decR := sjisDecReplace

/-- Strict encoder of the modelled iso2022_jp codec (stateful, `jis` is
true while the JIS X 0208 mode is active): ASCII is emitted directly after
switching back with ESC ( B when needed, hiragana U+3041..U+3093 is emitted
as the JIS X 0208 row-4 pair 0x24 0x21..0x73 after switching with
ESC $ B, and the codec returns to ASCII with a trailing ESC ( B when the
string ends in JIS mode, exactly as CPython does.  `i` is the index of the
current character, used for the failure range. -/
def iso2022EncStrict : List Nat → Bool → Nat → Except (Nat × Nat) (List Nat)
  | [], jis, _ => .ok (if jis then [27, 40, 66] else [])
  | c :: cs, jis, i =>
    if c < 128 then
      (iso2022EncStrict cs false (i + 1)).map
        (fun t => (if jis then [27, 40, 66] else []) ++ c :: t)
    else if 0x3041 ≤ c ∧ c ≤ 0x3093 then
      (iso2022EncStrict cs true (i + 1)).map
        (fun t => (if jis then [] else [27, 36, 66]) ++ 36 :: (c - 0x3041 + 33) :: t)
    else .error (i, i + 1)

/-- `errors=replace` encoder of the modelled iso2022_jp codec. -/
def iso2022EncReplace : List Nat → Bool → List Nat
  | [], jis => if jis then [27, 40, 66] else []
  | c :: cs, jis =>
    if c < 128 then (if jis then [27, 40, 66] else []) ++ c :: iso2022EncReplace cs false
    else if 0x3041 ≤ c ∧ c ≤ 0x3093 then
      (if jis then [] else [27, 36, 66]) ++ 36 :: (c - 0x3041 + 33) :: iso2022EncReplace cs true
    else (if jis then [27, 40, 66] else []) ++ 63 :: iso2022EncReplace cs false

/-- Strict decoder of the modelled iso2022_jp codec.  The escape sequences
ESC $ B and ESC $ @ switch to JIS X 0208 mode, ESC ( B and ESC ( J switch
back to the single-byte mode; any other use of the escape byte, any byte
not below 128 in single-byte mode and any pair outside the modelled
hiragana row in JIS mode is a decode failure. -/
def iso2022Dec : List Nat → Bool → Option (List Nat)
  | [], _ => some []
  | b :: rest, jis =>
    if b = 27 then
      match rest with
      | 36 :: 66 :: r => iso2022Dec r true
      | 36 :: 64 :: r => iso2022Dec r true
      | 40 :: 66 :: r => iso2022Dec r false
      | 40 :: 74 :: r => iso2022Dec r false
      | _ => none
    else if jis then
      match rest with
      | b2 :: r =>
        if b = 36 ∧ 33 ≤ b2 ∧ b2 ≤ 115 then
          (iso2022Dec r true).map (fun t => (0x3041 + b2 - 33) :: t)
        else none
      | [] => none
    else
      if b < 128 then (iso2022Dec rest jis).map (fun t => b :: t)
      else none

/-- `errors=replace` decoder of the modelled iso2022_jp codec: a failure
becomes U+FFFD and decoding resumes at the next byte. -/
def iso2022DecReplace : List Nat → Bool → List Nat
  | [], _ => []
  | b :: rest, jis =>
    if b = 27 then
      match rest with
      | 36 :: 66 :: r => iso2022DecReplace r true
      | 36 :: 64 :: r => iso2022DecReplace r true
      | 40 :: 66 :: r => iso2022DecReplace r false
      | 40 :: 74 :: r => iso2022DecReplace r false
      | r => 0xFFFD :: iso2022DecReplace r jis
    else if jis then
      match rest with
      | b2 :: r =>
        if b = 36 ∧ 33 ≤ b2 ∧ b2 ≤ 115 then (0x3041 + b2 - 33) :: iso2022DecReplace r true
        else 0xFFFD :: iso2022DecReplace r true
      | [] => [0xFFFD]
    else
      if b < 128 then b :: iso2022DecReplace rest jis
      else 0xFFFD :: iso2022DecReplace rest jis
termination_by l _ => l.length
decreasing_by
  all_goals simp only [List.length_cons]
  all_goals omega

/-- Model of the Python iso2022_jp codec (the alias `iso-2022-jp` resolves
to the very same codec in Python). -/
def iso2022Codec : PyCodec where
  encS v := iso2022EncStrict v false 0
  encR v := iso2022EncReplace v false
  dec v := iso2022Dec v false
  decR v := iso2022DecReplace v false

/-- Model of the Python codec registry, restricted to the codecs whose
transcoding behaviour this development models; every other name behaves as
an unknown codec (`LookupError`). -/
def lookupCodec (encoding : String) : Option PyCodec :=
  if encoding = "iso8859" ∨ encoding = "latin_1" then some latin1Codec
  else if encoding = "shift_jis" then some sjisCodec
  else if encoding = "iso2022_jp" ∨ encoding = "iso-2022-jp" then some iso2022Codec
  else none

/-- Python `value.encode(encoding, errors=...)`. -/
def pyEncode (encoding : String) (value : List Nat) (errors : ErrorsParam) : Except PyErr (List Nat) :=
  match lookupCodec encoding with
  | none => .error (.lookupError encoding)
  | some c =>
    match errors with
    | .strict =>
      match c.encS value with
      | .error (s, e) => .error (.unicodeEncodeError encoding s e)
      | .ok bs => .ok bs
    | .replace => .ok (c.encR value)

/-- Python `value.decode(encoding)` (strict). -/
def pyDecode (encoding : String) (value : List Nat) : Except PyErr (List Nat) :=
  match lookupCodec encoding with
  | none => .error (.lookupError encoding)
  | some c =>
    match c.dec value with
    | some t => .ok t
    | none => .error (.unicodeDecodeError encoding)

/-- Python `value.decode(encoding, errors=replace)`. -/
def pyDecodeReplace (encoding : String) (value : List Nat) : Except PyErr (List Nat) :=
  match lookupCodec encoding with
  | none => .error (.lookupError encoding)
  | some c => .ok (c.decR value)

/-- Names that exist in the Python codec registry (the `codecs.lookup`
existence probe of `convert_encodings`), modelled as a finite set of valid
Python codec names. -/
def codec_registry_names : List String :=
  ["iso8859", "latin_1", "shift_jis", "iso2022_jp", "iso-2022-jp",
   "iso8859_2", "iso8859_3", "iso8859_4", "euc_kr",
   "UTF8", "GBK", "GB18030", "GB2312", "ascii", "utf_8"]

/-- Python `codecs.lookup(encoding)` succeeding, as a Boolean probe. -/
def codec_lookup_exists (encoding : String) : Bool :=
  decide (encoding ∈ codec_registry_names)

/-! Static tables of `charset.py`. -/

/-- `default_encoding = "iso8859"`. -/
def default_encoding : String := "iso8859"

/-- The `python_encoding` dict mapping DICOM Specific Character Set terms
to Python codec names. -/
def python_encoding : List (String × String) :=
  [("", default_encoding),
   ("ISO_IR 6", default_encoding),
   ("ISO_IR 13", "shift_jis"),
   ("ISO_IR 100", "latin_1"),
   ("ISO_IR 101", "iso8859_2"),
   ("ISO_IR 109", "iso8859_3"),
   ("ISO_IR 110", "iso8859_4"),
   ("ISO_IR 126", "iso_ir_126"),
   ("ISO_IR 127", "iso_ir_127"),
   ("ISO_IR 138", "iso_ir_138"),
   ("ISO_IR 144", "iso_ir_144"),
   ("ISO_IR 148", "iso_ir_148"),
   ("ISO_IR 166", "iso_ir_166"),
   ("ISO 2022 IR 6", "iso8859"),
   ("ISO 2022 IR 13", "shift_jis"),
   ("ISO 2022 IR 87", "iso2022_jp"),
   ("ISO 2022 IR 100", "latin_1"),
   ("ISO 2022 IR 101", "iso8859_2"),
   ("ISO 2022 IR 109", "iso8859_3"),
   ("ISO 2022 IR 110", "iso8859_4"),
   ("ISO 2022 IR 126", "iso_ir_126"),
   ("ISO 2022 IR 127", "iso_ir_127"),
   ("ISO 2022 IR 138", "iso_ir_138"),
   ("ISO 2022 IR 144", "iso_ir_144"),
   ("ISO 2022 IR 148", "iso_ir_148"),
   ("ISO 2022 IR 149", "euc_kr"),
   ("ISO 2022 IR 159", "iso-2022-jp"),
   ("ISO 2022 IR 166", "iso_ir_166"),
   ("ISO 2022 IR 58", "iso_ir_58"),
   ("ISO_IR 192", "UTF8"),
   ("GB18030", "GB18030"),
   ("ISO 2022 GBK", "GBK"),
   ("ISO 2022 58", "GB2312"),
   ("GBK", "GBK")]

/-- `STAND_ALONE_ENCODINGS`. -/
def STAND_ALONE_ENCODINGS : List String := ["ISO_IR 192", "GBK", "GB18030"]

/-- `CODES_TO_ENCODINGS`: escape sequences (as byte lists) to Python codec
names. -/
def codes_to_encodings : List (List Nat × String) :=
  [([27, 40, 66], default_encoding),
   ([27, 45, 65], "latin_1"),
   ([27, 41, 73], "shift_jis"),
   ([27, 40, 74], "shift_jis"),
   ([27, 36, 66], "iso2022_jp"),
   ([27, 45, 66], "iso8859_2"),
   ([27, 45, 67], "iso8859_3"),
   ([27, 45, 68], "iso8859_4"),
   ([27, 45, 70], "iso_ir_126"),
   ([27, 45, 71], "iso_ir_127"),
   ([27, 45, 72], "iso_ir_138"),
   ([27, 45, 76], "iso_ir_144"),
   ([27, 45, 77], "iso_ir_148"),
   ([27, 45, 84], "iso_ir_166"),
   ([27, 36, 41, 67], "euc_kr"),
   ([27, 36, 40, 68], "iso-2022-jp"),
   ([27, 36, 41, 65], "iso_ir_58")]

/-- Lookup in `CODES_TO_ENCODINGS`. -/
def codes_to_encodings_lookup (code : List Nat) : Option String :=
  codes_to_encodings.lookup code

/-- `ENCODINGS_TO_CODES`: the dict inversion of `CODES_TO_ENCODINGS`
(insertion order makes ESC ( J win for shift_jis, and ESC ( B win for the
default encoding) followed by the explicit override setting shift_jis to
ESC ) I; `.get` misses return the empty byte string. -/
def encodings_to_codes (encoding : String) : List Nat :=
  if encoding = "iso8859" then [27, 40, 66]
  else if encoding = "latin_1" then [27, 45, 65]
  else if encoding = "shift_jis" then [27, 41, 73]
  else if encoding = "iso2022_jp" then [27, 36, 66]
  else if encoding = "iso8859_2" then [27, 45, 66]
  else if encoding = "iso8859_3" then [27, 45, 67]
  else if encoding = "iso8859_4" then [27, 45, 68]
  else if encoding = "iso_ir_126" then [27, 45, 70]
  else if encoding = "iso_ir_127" then [27, 45, 71]
  else if encoding = "iso_ir_138" then [27, 45, 72]
  else if encoding = "iso_ir_144" then [27, 45, 76]
  else if encoding = "iso_ir_148" then [27, 45, 77]
  else if encoding = "iso_ir_166" then [27, 45, 84]
  else if encoding = "euc_kr" then [27, 36, 41, 67]
  else if encoding = "iso-2022-jp" then [27, 36, 40, 68]
  else if encoding = "iso_ir_58" then [27, 36, 41, 65]
  else []

/-- `handled_encodings`: multi-byte character sets whose escape sequences
are consumed by the Python codec itself. -/
def handled_encodings : List String := ["iso2022_jp", "iso-2022-jp", "iso_ir_58"]

/-- `need_tail_escape_sequence_encodings`. -/
def need_tail_escape_sequence_encodings : List String := ["iso2022_jp", "iso-2022-jp"]

/-! Special-case byte encoders. -/

/-- Loop of `_encode_to_jis_x_0201`: encodes each character individually
with shift_jis; `n` is the length of the whole value, `i` the current
index, `buf` the output accumulated so far, and `start`/`stop` the running
range of characters whose shift_jis encoding was not a single byte
(initially `n` and 0, as in the source). -/
def encode_to_jis_x_0201_go (errors : ErrorsParam) (n : Nat) :
    List Nat → Nat → List Nat → Nat → Nat → Except PyErr (List Nat)
  | [], _, buf, start, stop =>
    if start < n ∧ 0 < stop ∧ errors = .strict then
      .error (.unicodeEncodeError "shift_jis" start stop)
    else .ok buf
  | c :: cs, i, buf, start, stop =>
    match pyEncode "shift_jis" [c] errors with
    | .error e => .error e
    | .ok encoded =>
      if encoded.length ≠ 1 then
        encode_to_jis_x_0201_go errors n cs (i + 1) (buf ++ [63]) (min start i) (max stop (i + 1))
      else
        encode_to_jis_x_0201_go errors n cs (i + 1) (buf ++ encoded) start stop

/-- `_encode_to_jis_x_0201`: JIS X 0201 encoding through shift_jis,
accepting only characters whose shift_jis encoding is a single byte. -/
def encode_to_jis_x_0201 (value : List Nat) (errors : ErrorsParam) : Except PyErr (List Nat) :=
  encode_to_jis_x_0201_go errors value.length value 0 [] value.length 0

/-- `_encode_to_jis_x_0208`: encode with iso2022_jp, then strip the
trailing return-to-ASCII escape sequence if present. -/
def encode_to_jis_x_0208 (value : List Nat) (errors : ErrorsParam) : Except PyErr (List Nat) :=
  match pyEncode "iso2022_jp" value errors with
  | .error e => .error e
  | .ok encoded =>
    if encoded.drop (encoded.length - 3) = encodings_to_codes default_encoding then
      .ok (encoded.take (encoded.length - 3))
    else .ok encoded

/-- `_get_escape_sequence_to_alphanumeric`.  The source indexes
`encodings[0]`; all call sites pass a non-empty list, on which `headD`
agrees with the source. -/
def get_escape_sequence_to_alphanumeric (encodings : List String) : List Nat :=
  if encodings.headD "" = "shift_jis" then [27, 40, 74]
  else encodings_to_codes (encodings.headD "")

/-- `_encode_string_impl`: dispatch to the custom encoders (the
`custom_encoders` dict) or to the plain Python encode. -/
def encode_string_impl (value : List Nat) (encoding : String) (errors : ErrorsParam) :
    Except PyErr (List Nat) :=
  if encoding = "shift_jis" then encode_to_jis_x_0201 value errors
  else if encoding = "iso2022_jp" ∨ encoding = "iso-2022-jp" then encode_to_jis_x_0208 value errors
  else pyEncode encoding value errors

/-! Decoding. -/

/-- The fragment-splitting regex of `decode_string`
(`(^[^escape]+|[escape][^escape]*)` with escape byte 27), implemented by a
single pass: `cur` holds the bytes of the fragment being built, in
reverse; an escape byte closes the current fragment and starts a new one,
and the end of the input closes the last fragment. -/
def split_accum : List Nat → List Nat → List (List Nat)
  | [], cur => [cur.reverse]
  | b :: rest, cur =>
    if b = 27 then cur.reverse :: split_accum rest [27]
    else split_accum rest (b :: cur)

/-- Fragment splitting of `decode_string`: the maximal non-empty prefix of
non-escape bytes (when present), then one fragment per escape byte running
up to the next escape byte.  An empty value has no fragments. -/
def split_fragments (value : List Nat) : List (List Nat) :=
  match value with
  | [] => []
  | b :: rest => split_accum rest [b]

/-- Specification view of the fragmentation used in the proofs: the
fragments of a byte string that starts with the escape byte (or is
empty), phrased with maximal escape-free runs. -/
def split_fragments_go : List Nat → List (List Nat)
  | [] => []
  | b :: rest =>
    (b :: rest.takeWhile (fun x => x ≠ 27)) :: split_fragments_go (rest.dropWhile (fun x => x ≠ 27))
termination_by l => l.length
decreasing_by
  have h : ∀ (p : Nat → Bool) (l : List Nat), (l.dropWhile p).length ≤ l.length := by
    intro p l
    induction l with
    | nil => simp [List.dropWhile]
    | cons x xs ih =>
      by_cases hpx : p x = true
      · simp only [List.dropWhile, hpx, if_true]
        exact Nat.le_succ_of_le ih
      · simp [List.dropWhile, hpx]
  simp only [List.length_cons]
  exact Nat.lt_succ_of_le (h _ _)

/-- Warning messages (abbreviations of the source messages). -/
def unknownEncodingWarning : String :=
  "Unknown encoding - using default encoding instead"

/-- Warning for a decode failure on the fast path of `decode_string`. -/
def decodeFailWarning : String :=
  "Failed to decode byte string - using replacement characters in decoded string"

/-- Warning for a decode failure inside `_decode_fragment`. -/
def fragmentFailWarning : String :=
  "Failed to decode byte string with encodings - using replacement characters in decoded string"

/-- Warning for an unknown escape sequence. -/
def unknownEscapeWarning : String :=
  "Found unknown escape sequence in encoded string value - using first encoding"

/-- Warning for an encode failure in `encode_string`. -/
def encodeFailWarning : String :=
  "Failed to encode value with encodings - using replacement characters in encoded string"

/-- Warning naming an assumed replacement for a misspelled term. -/
def assumedWarning : String :=
  "Incorrect value for Specific Character Set - assuming corrected term"

/-- Warning for a stand-alone first encoding discarding the rest. -/
def standaloneHeadWarning : String :=
  "Value for Specific Character Set does not allow code extensions, ignoring the remaining encodings"

/-- Warning for a stand-alone encoding at a later position. -/
def standaloneItemWarning : String :=
  "Value cannot be used as code extension, ignoring it"

/-- `_decode_escaped_fragment`: decode a fragment that starts with an
escape sequence. -/
def decode_escaped_fragment (byte_str : List Nat) (encodings : List String)
    (delimiters : List Nat) (strict : Bool) : Except PyErr (List Nat) × List String :=
  let seq_length := if byte_str.take 3 = [27, 36, 40] ∨ byte_str.take 3 = [27, 36, 41] then 4 else 3
  let encoding := (codes_to_encodings_lookup (byte_str.take seq_length)).getD ""
  if encoding ∈ encodings ∨ encoding = default_encoding then
    if encoding ∈ handled_encodings then
      (pyDecode encoding byte_str, [])
    else
      let rest := byte_str.drop seq_length
      match rest.findIdx? (fun ch => decide (ch ∈ delimiters)) with
      | some index =>
        ((do
          let a ← pyDecode encoding (rest.take index)
          let b ← (match encodings with
            | [] => (.error .indexError : Except PyErr (List Nat))
            | e0 :: _ => pyDecode e0 (rest.drop index))
          pure (a ++ b)), [])
      | none => (pyDecode encoding rest, [])
  else
    if strict then (.error .valueError, [])
    else
      ((match encodings with
        | [] => (.error .indexError : Except PyErr (List Nat))
        | e0 :: _ => pyDecodeReplace e0 byte_str), [unknownEscapeWarning])

/-- `_decode_fragment`: decode one fragment, catching `UnicodeError` and
falling back to replacement characters with a warning in lenient mode. -/
def decode_fragment (byte_str : List Nat) (encodings : List String)
    (delimiters : List Nat) (strict : Bool) : Except PyErr (List Nat) × List String :=
  let attempt : Except PyErr (List Nat) × List String :=
    if byte_str.head? = some 27 then
      decode_escaped_fragment byte_str encodings delimiters strict
    else
      ((match encodings with
        | [] => (.error .indexError : Except PyErr (List Nat))
        | e0 :: _ => pyDecode e0 byte_str), [])
  match attempt with
  | (.error e, w) =>
    if e.isUnicodeError then
      if strict then (.error e, w)
      else
        ((match encodings with
          | [] => (.error .indexError : Except PyErr (List Nat))
          | e0 :: _ => pyDecodeReplace e0 byte_str), w ++ [fragmentFailWarning])
    else (.error e, w)
  | (.ok t, w) => (.ok t, w)

/-- The join of the per-fragment decodings in `decode_string`: fragments
are decoded left to right, the first exception aborts (warnings emitted by
earlier fragments stay emitted), and the decoded texts are concatenated. -/
def decode_fragments (encodings : List String) (delimiters : List Nat) (strict : Bool) :
    List (List Nat) → Except PyErr (List Nat) × List String
  | [] => (.ok [], [])
  | f :: fs =>
    match decode_fragment f encodings delimiters strict with
    | (.error e, w) => (.error e, w)
    | (.ok t, w) =>
      match decode_fragments encodings delimiters strict fs with
      | (.error e, w2) => (.error e, w ++ w2)
      | (.ok ts, w2) => (.ok (t ++ ts), w ++ w2)

/-- `decode_string`: fast path with the first encoding when no escape byte
occurs, escape path splitting into fragments otherwise. -/
def decode_string (value : List Nat) (encodings : List String)
    (delimiters : List Nat) (strict : Bool) : Except PyErr (List Nat) × List String :=
  if (27 : Nat) ∈ value then
    decode_fragments encodings delimiters strict (split_fragments value)
  else
    match encodings with
    | [] => (.error .indexError, [])
    | first :: _ =>
      match lookupCodec first with
      | none =>
        if strict then (.error (.lookupError first), [])
        else (pyDecode default_encoding value, [unknownEncodingWarning])
      | some c =>
        match c.dec value with
        | some t => (.ok t, [])
        | none =>
          if strict then (.error (.unicodeDecodeError first), [])
          else (.ok (c.decR value), [decodeFailWarning])

/-! Encoding. -/

/-- The inner search of `_encode_string_parts`: find the encoding able to
encode the longest prefix of `part`, scanning the declared encodings in
order; a whole-string success wins outright, otherwise the largest
`e.start` of the `UnicodeError` wins (strictly larger only, so the first
listed encoding wins ties); non-unicode errors propagate. -/
def findBestEncoding (part : List Nat) : List String → Nat → Option String →
    Except PyErr (Nat × Option String)
  | [], maxIndex, best => .ok (maxIndex, best)
  | encoding :: rest, maxIndex, best =>
    match encode_string_impl part encoding .strict with
    | .ok _ => .ok (part.length, some encoding)
    | .error e =>
      if e.isUnicodeError then
        if maxIndex < e.startIdx then findBestEncoding part rest e.startIdx (some encoding)
        else findBestEncoding part rest maxIndex best
      else .error e

/-- Loop of `_encode_string_parts`: encode the longest encodable prefix of
the remaining suffix with the winning encoding, prepend its escape code
unless self-delimiting, and continue with the rest; an empty winning
prefix raises `ValueError`. -/
def encode_string_parts_go (encodings : List String) :
    List Nat → Option String → List Nat → Except PyErr (List Nat)
  | part, best, acc =>
    if hp : part = [] then
      .ok (acc ++ (match best with
        | some b => if b ∈ need_tail_escape_sequence_encodings then
            get_escape_sequence_to_alphanumeric encodings
          else []
        | none => []))
    else
      match findBestEncoding part encodings 0 best with
      | .error e => .error e
      | .ok (maxIndex, bestFound) =>
        if hmi : maxIndex = 0 then .error .valueError
        else
          match bestFound with
          | none => .error .valueError
          | some b =>
            match encode_string_impl (part.take maxIndex) b .strict with
            | .error e => .error e
            | .ok encodedPart =>
              encode_string_parts_go encodings (part.drop maxIndex) (some b)
                (acc ++ (if b ∈ handled_encodings then [] else encodings_to_codes b) ++ encodedPart)
termination_by part _ _ => part.length
decreasing_by
  have hlen : 0 < part.length := by
    cases part with
    | nil => exact absurd rfl hp
    | cons a as => simp
  simp [List.length_drop]
  omega

/-- `_encode_string_parts`. -/
def encode_string_parts (value : List Nat) (encodings : List String) : Except PyErr (List Nat) :=
  encode_string_parts_go encodings value none []

/-- The final fallback of `encode_string` (after both passes failed): in
strict mode re-encode with the first encoding to surface its failure (the
result is discarded if that encode happens to succeed), then warn and
encode with the first encoding using replacement characters. -/
def encode_string_fallback_tail (value : List Nat) (encodings : List String) :
    Except PyErr (List Nat) × List String :=
  match encodings with
  | [] => (.error .indexError, [encodeFailWarning])
  | e0 :: _ =>
    match encode_string_impl value e0 .replace with
    | .error e => (.error e, [encodeFailWarning])
    | .ok b => (.ok b, [encodeFailWarning])

/-- The `for ... else` branch of `encode_string`: retry with the
partitioning pass when more than one encoding is declared (`ValueError`
from it is swallowed, anything else propagates), then run the final
fallback. -/
def encode_string_fallback (value : List Nat) (encodings : List String) (strict : Bool) :
    Except PyErr (List Nat) × List String :=
  let attempt : Except PyErr (List Nat) :=
    if 1 < encodings.length then encode_string_parts value encodings else .error .valueError
  match attempt with
  | .ok b => (.ok b, [])
  | .error e =>
    if e.isValueError then
      if strict then
        match encodings with
        | [] => (.error .indexError, [])
        | e0 :: _ =>
          match pyEncode e0 value .strict with
          | .error e2 => (.error e2, [])
          | .ok _ => encode_string_fallback_tail value encodings
      else encode_string_fallback_tail value encodings
    else (.error e, [])

/-- The whole-string pass of `encode_string`: try each declared encoding in
order; on success prepend its escape code when it is not the first
encoding and not self-delimiting, and append the return-to-alphanumeric
escape sequence for the codecs that need a tail; `UnicodeError` moves on
to the next encoding, other errors propagate. -/
def encode_string_go (value : List Nat) (encodings : List String) (strict : Bool) :
    List String → Nat → Except PyErr (List Nat) × List String
  | [], _ => encode_string_fallback value encodings strict
  | encoding :: rest, i =>
    match encode_string_impl value encoding .strict with
    | .ok encoded0 =>
      let encoded1 :=
        if 0 < i ∧ encoding ∉ handled_encodings then encodings_to_codes encoding ++ encoded0
        else encoded0
      let encoded2 :=
        if encoding ∈ need_tail_escape_sequence_encodings then
          encoded1 ++ get_escape_sequence_to_alphanumeric encodings
        else encoded1
      (.ok encoded2, [])
    | .error e =>
      if e.isUnicodeError then encode_string_go value encodings strict rest (i + 1)
      else (.error e, [])

/-- `encode_string`. -/
def encode_string (value : List Nat) (encodings : List String) (strict : Bool) :
    Except PyErr (List Nat) × List String :=
  encode_string_go value encodings strict encodings 0

/-! Identifier resolution (`convert_encodings`). -/

/-- The regex `ISO[^_]IR` anchored at the start: ISO, any character other
than an underscore, then IR. -/
def matchIsoIrTypo (s : String) : Bool :=
  match s.data with
  | 'I' :: 'S' :: 'O' :: c :: 'I' :: 'R' :: _ => c ≠ '_'
  | _ => false

/-- The regex `(?=ISO.2022.IR.)(?!ISO 2022 IR )` anchored at the start:
ISO, any character, 2022, any character, IR, any character (a dot does not
match the newline character), excluding the correctly spelled form. -/
def matchIso2022Typo (s : String) : Bool :=
  match s.data with
  | 'I' :: 'S' :: 'O' :: a :: '2' :: '0' :: '2' :: '2' :: b :: 'I' :: 'R' :: c :: _ =>
    (a ≠ '\n' ∧ b ≠ '\n' ∧ c ≠ '\n') ∧ ¬(a = ' ' ∧ b = ' ' ∧ c = ' ')
  | _ => false

/-- `_python_encoding_for_corrected_encoding` (the strict-mode raise of
`_warn_about_invalid_encoding` is inlined): patch the two recognized
classes of misspellings, otherwise accept a valid Python codec name as is,
otherwise fall back to the default encoding or raise. -/
def python_encoding_for_corrected_encoding (encoding : String) (strict : Bool) :
    Except PyErr String × List String :=
  let patched : Option String :=
    if matchIsoIrTypo encoding then some ("ISO_IR" ++ encoding.drop 6)
    else if matchIso2022Typo encoding then some ("ISO 2022 IR " ++ encoding.drop 12)
    else none
  match patched with
  | some p =>
    match python_encoding.lookup p with
    | some py => (.ok py, [assumedWarning])
    | none =>
      if strict then (.error (.lookupError encoding), [])
      else (.ok default_encoding, [unknownEncodingWarning])
  | none =>
    if codec_lookup_exists encoding then (.ok encoding, [])
    else if strict then (.error (.lookupError encoding), [])
    else (.ok default_encoding, [unknownEncodingWarning])

/-- The per-element loop of `convert_encodings` building `py_encodings`. -/
def convert_each (strict : Bool) : List String → Except PyErr (List String) × List String
  | [] => (.ok [], [])
  | e :: rest =>
    let head : Except PyErr String × List String :=
      match python_encoding.lookup e with
      | some p => (.ok p, [])
      | none => python_encoding_for_corrected_encoding e strict
    match head with
    | (.error er, w) => (.error er, w)
    | (.ok p, w) =>
      match convert_each strict rest with
      | (.error er, w2) => (.error er, w ++ w2)
      | (.ok ps, w2) => (.ok (p :: ps), w ++ w2)

/-- One step of the reversed deletion loop of
`_handle_illegal_standalone_encodings`: `del py_encodings[i + 1]` when the
declared encoding at tail position `i` is stand-alone. -/
def standalone_step (encodings : List String) (acc : List String × List String) (i : Nat) :
    List String × List String :=
  if (encodings.drop 1).getD i "" ∈ STAND_ALONE_ENCODINGS then
    (acc.1.eraseIdx (i + 1), acc.2 ++ [standaloneItemWarning])
  else acc

/-- `_handle_illegal_standalone_encodings`: a stand-alone first encoding
keeps only the first resolved codec; otherwise every stand-alone entry in
the tail is deleted (iterating positions in reverse, as the source
does). -/
def handle_illegal_standalone_encodings (encodings py_encodings : List String) :
    List String × List String :=
  if encodings.headD "" ∈ STAND_ALONE_ENCODINGS then
    (py_encodings.take 1, [standaloneHeadWarning])
  else
    (List.range (encodings.length - 1)).reverse.foldl (standalone_step encodings) (py_encodings, [])

/-- The body of `convert_encodings` after the first-element normalization:
resolve each term, then enforce the stand-alone restriction on
multi-valued lists. -/
def convert_encodings_core (encodings1 : List String) (strict : Bool) :
    Except PyErr (List String) × List String :=
  match convert_each strict encodings1 with
  | (.error e, w) => (.error e, w)
  | (.ok py, w) =>
    if 1 < encodings1.length then
      let pw := handle_illegal_standalone_encodings encodings1 py
      (.ok pw.1, w ++ pw.2)
    else (.ok py, w)

/-- `convert_encodings` on a list argument (the bare-string normalization
branch of the source does not apply to list inputs): copy, replace an
empty first element by ISO_IR 6, resolve, enforce stand-alone rules.  An
empty list raises `IndexError` as in Python. -/
def convert_encodings (encodings : List String) (strict : Bool) :
    Except PyErr (List String) × List String :=
  match encodings with
  | [] => (.error .indexError, [])
  | e0 :: rest => convert_encodings_core ((if e0 = "" then "ISO_IR 6" else e0) :: rest) strict

/-- Heap model for the mutation claim: the heap is a list of list-of-string
objects, a reference is an index.  `convert_encodings` first copies its
argument (`encodings[:]`) into a fresh object and performs its only
in-place mutation (`encodings[0] = ...`) on that copy. -/
def convert_encodings_ref (heap : List (List String)) (r : Nat) (strict : Bool) :
    List (List String) × (Except PyErr (List String) × List String) :=
  let heap1 := heap ++ [heap.getD r []]
  let r1 := heap.length
  match heap1.getD r1 [] with
  | [] => (heap1, (.error .indexError, []))
  | e0 :: rest =>
    let heap2 := if e0 = "" then heap1.set r1 ("ISO_IR 6" :: rest) else heap1
    (heap2, convert_encodings_core (heap2.getD r1 []) strict)

/-! Helper definitions used by the theorem statements and proofs. -/

/-- The single JIS X 0201 byte of a character under
`_encode_to_jis_x_0201` with non-strict errors: its shift_jis byte when
the shift_jis encoding is a single byte, a question mark otherwise. -/
def jisX0201Byte (c : Nat) : Nat :=
  match sjisEncChar c with
  | some [b] => b
  | _ => 63

/-- A character whose shift_jis encoding exists but is not a single
byte. -/
def sjisMulti (c : Nat) : Bool :=
  match sjisEncChar c with
  | some bs => decide (bs.length ≠ 1)
  | none => false

/-- The running minimum of `start` over the multi-byte characters of a
suffix, as tracked by the `_encode_to_jis_x_0201` loop. -/
def minMulti : List Nat → Nat → Nat → Nat
  | [], _, st => st
  | c :: cs, i, st =>
    if sjisMulti c then minMulti cs (i + 1) (min st i) else minMulti cs (i + 1) st

/-- The running maximum of `end` over the multi-byte characters of a
suffix, as tracked by the `_encode_to_jis_x_0201` loop. -/
def maxMulti : List Nat → Nat → Nat → Nat
  | [], _, sp => sp
  | c :: cs, i, sp =>
    if sjisMulti c then maxMulti cs (i + 1) (max sp (i + 1)) else maxMulti cs (i + 1) sp

/-- The iso2022_jp encoding of a value without the automatic trailing
return-to-ASCII sequence (the form produced by `_encode_to_jis_x_0208`);
only used on values whose characters are ASCII or modelled hiragana. -/
def iso2022Body : List Nat → Bool → List Nat
  | [], _ => []
  | c :: cs, jis =>
    if c < 128 then (if jis then [27, 40, 66] else []) ++ c :: iso2022Body cs false
    else (if jis then [] else [27, 36, 66]) ++ 36 :: (c - 0x3041 + 33) :: iso2022Body cs true

/-- Whether the iso2022_jp encoder ends in JIS mode after a suffix. -/
def endsJis : List Nat → Bool → Bool
  | [], jis => jis
  | c :: cs, _ => endsJis cs (if c < 128 then false else true)

/-- The JIS X 0208 byte pairs of a run of modelled hiragana. -/
def jisPairs : List Nat → List Nat
  | [] => []
  | c :: cs => 36 :: (c - 0x3041 + 33) :: jisPairs cs

/-- Every escape byte in the list is followed by at least three bytes
(true of the output of the iso2022_jp encoder once the automatic trailer
is stripped, because each emitted escape sequence is followed by a data
byte or pair). -/
def escSpaced : List Nat → Bool
  | [] => true
  | b :: rest => (decide (b ≠ 27) || decide (3 ≤ rest.length)) && escSpaced rest

/-- The effect claimed for the stand-alone deletion loop: keep exactly the
resolved codecs whose declared identifier is not stand-alone. -/
def keepNonStandalone : List String → List String → List String
  | e :: es, p :: ps =>
    if e ∈ STAND_ALONE_ENCODINGS then keepNonStandalone es ps
    else p :: keepNonStandalone es ps
  | _, _ => []

/-- A character representable by the encoder the program uses for the
given codec: for shift_jis this is the repository's own JIS X 0201
single-byte encoder (ASCII or half-width katakana), for iso2022_jp ASCII
or modelled hiragana, for the latin-1 family any code point below 256. -/
def representableChar (encoding : String) (c : Nat) : Bool :=
  if encoding = "shift_jis" then decide (c < 128 ∨ (0xFF61 ≤ c ∧ c ≤ 0xFF9F))
  else if encoding = "iso2022_jp" then decide (c < 128 ∨ (0x3041 ≤ c ∧ c ≤ 0x3093))
  else if encoding = "iso8859" ∨ encoding = "latin_1" then decide (c < 256)
  else false

/-- The shape of the text consumed by one step of the iso2022_jp
fragment-decoding induction: the suffix is empty, or its first character
matches the mode to be entered (`true`: ASCII next, `false`: JIS next). -/
def modeFits (m : Bool) (v : List Nat) : Prop :=
  v = [] ∨ ∃ h t, v = h :: t ∧ (if m then h < 128 else ¬ h < 128)

/-! General helper lemmas. -/

theorem takeWhile_eq_self_of_all {p : Nat → Bool} :
    ∀ (l : List Nat), (∀ b ∈ l, p b = true) → l.takeWhile p = l := by
  intro l
  induction l with
  | nil => intro _h; rfl
  | cons a as ih =>
    intro h
    have ha : p a = true := h a (by simp)
    have hrec := ih (fun b hb => h b (by simp [hb]))
    simp only [List.takeWhile_cons, ha, if_true, hrec]

theorem dropWhile_eq_nil_of_all {p : Nat → Bool} :
    ∀ (l : List Nat), (∀ b ∈ l, p b = true) → l.dropWhile p = [] := by
  intro l
  induction l with
  | nil => intro _h; rfl
  | cons a as ih =>
    intro h
    have ha : p a = true := h a (by simp)
    have hrec := ih (fun b hb => h b (by simp [hb]))
    simp only [List.dropWhile_cons, ha, if_true, hrec]

theorem takeWhile_append_stop {p : Nat → Bool} :
    ∀ (l1 l2 : List Nat), (∀ b ∈ l1, p b = true) → (l2 ≠ [] → p (l2.headD 0) = false) →
      (l1 ++ l2).takeWhile p = l1 ∧ (l1 ++ l2).dropWhile p = l2 := by
  intro l1 l2 h1 h2
  induction l1 with
  | nil =>
    cases l2 with
    | nil => simp
    | cons b bs =>
      have hb : p b = false := h2 (by simp)
      simp [List.takeWhile_cons, List.dropWhile_cons, hb]
  | cons a as ih =>
    have ha : p a = true := h1 a (by simp)
    have hrec := ih (fun b hb => h1 b (by simp [hb]))
    simp [List.takeWhile_cons, List.dropWhile_cons, ha, hrec.1, hrec.2]

theorem getD_append_lt {α : Type} (d : α) :
    ∀ (l l2 : List α) (i : Nat), i < l.length → (l ++ l2).getD i d = l.getD i d := by
  intro l l2 i h
  induction l generalizing i with
  | nil => simp at h
  | cons a as ih =>
    cases i with
    | zero => rfl
    | succ j =>
      simp only [List.cons_append, List.getD_cons_succ]
      exact ih j (by simpa using h)

theorem getD_append_len {α : Type} (d : α) (l : List α) (x : α) :
    (l ++ [x]).getD l.length d = x := by
  induction l with
  | nil => rfl
  | cons a as ih => simpa using ih

theorem set_append_len {α : Type} (l : List α) (x v : α) :
    (l ++ [x]).set l.length v = l ++ [v] := by
  induction l with
  | nil => rfl
  | cons a as ih => simp [List.set, ih]

/-! Lemmas about the shift_jis model and the JIS X 0201 encoder. -/

theorem sjisEncChar_ascii {c : Nat} (h : c < 128) : sjisEncChar c = some [c] := by
  simp [sjisEncChar, h]

theorem sjisEncChar_kata {c : Nat} (h1 : 0xFF61 ≤ c) (h2 : c ≤ 0xFF9F) :
    sjisEncChar c = some [c - 0xFF61 + 0xA1] := by
  have hn : ¬ c < 128 := by omega
  simp [sjisEncChar, hn, h1, h2]

theorem pyEncode_sjis_char_replace (c : Nat) :
    pyEncode "shift_jis" [c] .replace =
      .ok (match sjisEncChar c with | none => [63] | some bs => bs) := by
  simp only [pyEncode, lookupCodec]
  norm_num
  cases h : sjisEncChar c <;> simp [sjisCodec, encCharsReplace, h]

theorem pyEncode_sjis_char_strict (c : Nat) :
    pyEncode "shift_jis" [c] .strict =
      (match sjisEncChar c with
       | none => .error (.unicodeEncodeError "shift_jis" 0 1)
       | some bs => .ok bs) := by
  simp only [pyEncode, lookupCodec]
  norm_num
  cases h : sjisEncChar c <;> simp [sjisCodec, encCharsStrict, h, Except.map]

theorem jisX0201Byte_of_single {c b : Nat} (h : sjisEncChar c = some [b]) :
    jisX0201Byte c = b := by
  simp [jisX0201Byte, h]

/-- The shapes the shift_jis per-character encoder can return. -/
theorem sjisEncChar_shape (c : Nat) :
    sjisEncChar c = none ∨ (∃ b, sjisEncChar c = some [b]) ∨
      (∃ b1 b2, sjisEncChar c = some [b1, b2]) := by
  simp only [sjisEncChar]
  split_ifs <;> simp

theorem jis0201_go_replace (n : Nat) :
    ∀ (cs : List Nat) (i : Nat) (buf : List Nat) (st sp : Nat),
      encode_to_jis_x_0201_go .replace n cs i buf st sp = .ok (buf ++ cs.map jisX0201Byte) := by
  intro cs
  induction cs with
  | nil => intro i buf st sp; simp [encode_to_jis_x_0201_go]
  | cons c cs ih =>
    intro i buf st sp
    rw [encode_to_jis_x_0201_go, pyEncode_sjis_char_replace]
    rcases sjisEncChar_shape c with h | ⟨b, h⟩ | ⟨b1, b2, h⟩
    · simp only [h]
      have : jisX0201Byte c = 63 := by simp [jisX0201Byte, h]
      simp [ih, this]
    · simp only [h]
      have : jisX0201Byte c = b := jisX0201Byte_of_single h
      simp [ih, this]
    · simp only [h]
      have : jisX0201Byte c = 63 := by simp [jisX0201Byte, h]
      simp [ih, this]

theorem jis0201_go_strict_single (n : Nat) :
    ∀ (cs : List Nat) (i : Nat) (buf : List Nat) (st : Nat),
      (∀ c ∈ cs, ∃ b, sjisEncChar c = some [b]) →
      encode_to_jis_x_0201_go .strict n cs i buf st 0 = .ok (buf ++ cs.map jisX0201Byte) := by
  intro cs
  induction cs with
  | nil => intro i buf st _h; simp [encode_to_jis_x_0201_go]
  | cons c cs ih =>
    intro i buf st h
    obtain ⟨b, hb⟩ := h c (by simp)
    rw [encode_to_jis_x_0201_go, pyEncode_sjis_char_strict, hb]
    have hj : jisX0201Byte c = b := jisX0201Byte_of_single hb
    simp only [List.length_cons, List.length_nil]
    simp [ih (i + 1) (buf ++ [b]) st (fun c hc => h c (by simp [hc])), hj]

theorem jis0201_go_strict_unencodable (n : Nat) :
    ∀ (cs : List Nat) (i : Nat) (buf : List Nat) (st sp : Nat),
      (∃ c ∈ cs, sjisEncChar c = none) →
      encode_to_jis_x_0201_go .strict n cs i buf st sp =
        .error (.unicodeEncodeError "shift_jis" 0 1) := by
  intro cs
  induction cs with
  | nil => intro i buf st sp h; simp at h
  | cons c cs ih =>
    intro i buf st sp h
    rw [encode_to_jis_x_0201_go, pyEncode_sjis_char_strict]
    cases hc : sjisEncChar c with
    | none => simp
    | some bs =>
      have hw : ∃ c ∈ cs, sjisEncChar c = none := by
        rcases h with ⟨w, hw1, hw2⟩
        rcases List.mem_cons.mp hw1 with rfl | hmem
        · exact absurd hc (by simp [hw2])
        · exact ⟨w, hmem, hw2⟩
      dsimp only
      by_cases hl : bs.length ≠ 1
      · rw [if_pos hl]
        exact ih (i + 1) (buf ++ [63]) (min st i) (max sp (i + 1)) hw
      · rw [if_neg hl]
        exact ih (i + 1) (buf ++ bs) st sp hw

theorem jis0201_go_strict_multi (n : Nat) :
    ∀ (cs : List Nat) (i : Nat) (buf : List Nat) (st sp : Nat),
      (∀ c ∈ cs, (sjisEncChar c).isSome) →
      encode_to_jis_x_0201_go .strict n cs i buf st sp =
        (if minMulti cs i st < n ∧ 0 < maxMulti cs i sp then
          .error (.unicodeEncodeError "shift_jis" (minMulti cs i st) (maxMulti cs i sp))
        else .ok (buf ++ cs.map jisX0201Byte)) := by
  intro cs
  induction cs with
  | nil =>
    intro i buf st sp _h
    simp only [encode_to_jis_x_0201_go, minMulti, maxMulti, List.map_nil, List.append_nil]
    split_ifs with h1 h2 <;> simp_all
  | cons c cs ih =>
    intro i buf st sp h
    have hsome : (sjisEncChar c).isSome := h c (by simp)
    rw [encode_to_jis_x_0201_go, pyEncode_sjis_char_strict]
    rcases sjisEncChar_shape c with hc | ⟨b, hc⟩ | ⟨b1, b2, hc⟩
    · rw [hc] at hsome; simp at hsome
    · have hm : sjisMulti c = false := by simp [sjisMulti, hc]
      have hj : jisX0201Byte c = b := jisX0201Byte_of_single hc
      simp only [hc, minMulti, maxMulti, hm, if_false, Bool.false_eq_true]
      simp only [List.length_cons, List.length_nil]
      simp [ih (i + 1) (buf ++ [b]) st sp (fun c hc => h c (by simp [hc])), hj]
    · have hm : sjisMulti c = true := by simp [sjisMulti, hc]
      have hj : jisX0201Byte c = 63 := by simp [jisX0201Byte, hc]
      simp only [hc, minMulti, maxMulti, hm, if_true]
      simp only [List.length_cons, List.length_nil]
      simp [ih (i + 1) (buf ++ [63]) (min st i) (max sp (i + 1))
        (fun c hc => h c (by simp [hc])), hj]

theorem minMulti_high : ∀ (cs : List Nat) (k st : Nat), st ≤ k → minMulti cs k st = st := by
  intro cs
  induction cs with
  | nil => intro k st _h; rfl
  | cons c cs ih =>
    intro k st h
    by_cases hm : sjisMulti c = true
    · have : min st k = st := by omega
      simp [minMulti, hm, this, ih (k + 1) st (by omega)]
    · simp [minMulti, hm, ih (k + 1) st (by omega)]

theorem minMulti_of_first :
    ∀ (cs : List Nat) (k st i : Nat), i < cs.length →
      sjisMulti (cs.getD i 0) = true → (∀ j, j < i → sjisMulti (cs.getD j 0) = false) →
      minMulti cs k st = min st (k + i) := by
  intro cs
  induction cs with
  | nil => intro k st i h; simp at h
  | cons c cs ih =>
    intro k st i hlen hmul hfirst
    cases i with
    | zero =>
      have hc : sjisMulti c = true := by simpa using hmul
      have : min st k ≤ k := by omega
      simp [minMulti, hc, minMulti_high cs (k + 1) (min st k) (by omega)]
    | succ j =>
      have hc : sjisMulti c = false := by simpa using hfirst 0 (by omega)
      have := ih (k + 1) st j (by simpa using hlen) (by simpa using hmul)
        (fun j' hj' => by simpa using hfirst (j' + 1) (by omega))
      simp only [minMulti, hc, Bool.false_eq_true, if_false, this]
      omega

theorem maxMulti_none :
    ∀ (cs : List Nat) (k sp : Nat), (∀ c ∈ cs, sjisMulti c = false) →
      maxMulti cs k sp = sp := by
  intro cs
  induction cs with
  | nil => intro k sp _h; rfl
  | cons c cs ih =>
    intro k sp h
    have hc : sjisMulti c = false := h c (by simp)
    simp [maxMulti, hc, ih (k + 1) sp (fun c hc => h c (by simp [hc]))]

theorem maxMulti_of_last :
    ∀ (cs : List Nat) (k sp j : Nat), j < cs.length →
      sjisMulti (cs.getD j 0) = true →
      (∀ i, j < i → i < cs.length → sjisMulti (cs.getD i 0) = false) →
      maxMulti cs k sp = max sp (k + j + 1) := by
  intro cs
  induction cs with
  | nil => intro k sp j h; simp at h
  | cons c cs ih =>
    intro k sp j hlen hmul hlast
    cases j with
    | zero =>
      have hc : sjisMulti c = true := by simpa using hmul
      have hnone : ∀ c ∈ cs, sjisMulti c = false := by
        intro x hx
        obtain ⟨m, hm, hxm⟩ := List.getElem_of_mem hx
        have := hlast (m + 1) (by omega) (by simpa using hm)
        rw [List.getD_cons_succ, List.getD_eq_getElem cs 0 hm] at this
        rwa [hxm] at this
      simp [maxMulti, hc, maxMulti_none cs (k + 1) (max sp (k + 1)) hnone]
    | succ j' =>
      have hrec := ih (k + 1) (if sjisMulti c = true then max sp (k + 1) else sp) j'
        (by simpa using hlen) (by simpa using hmul)
        (fun i hi1 hi2 => by
          simpa using hlast (i + 1) (by omega) (by simp only [List.length_cons]; omega))
      by_cases hc : sjisMulti c = true
      · simp only [maxMulti, hc, if_true]
        simp only [hc, if_true] at hrec
        rw [hrec]; omega
      · simp only [maxMulti, hc, Bool.false_eq_true, if_false]
        simp only [hc, Bool.false_eq_true, if_false] at hrec
        rw [hrec]; omega

/-- C9: the claim is corrected.  `_encode_to_jis_x_0201` encodes each
character individually via shift_jis.  With non-strict errors each
character whose shift_jis encoding is not a single byte (including
characters shift_jis cannot encode at all, which the per-character replace
encoding turns into a question mark) becomes the single byte 63 and
encoding continues to the end.  With strict errors, when every character
of the value is shift_jis-encodable, the function raises a
UnicodeEncodeError whose range runs from the first to the last character
with a multi-byte encoding; but a character that shift_jis cannot encode
at all makes the per-character encode itself raise immediately, with the
range 0..1 of that single-character encode, not the collected range the
claim describes. -/
theorem C9_jis_x_0201_error_policy (value : List Nat) :
    (encode_to_jis_x_0201 value .replace = .ok (value.map jisX0201Byte)) ∧
    (∀ i j, (∀ c ∈ value, (sjisEncChar c).isSome) →
      i < value.length → sjisMulti (value.getD i 0) = true →
      (∀ k, k < i → sjisMulti (value.getD k 0) = false) →
      j < value.length → sjisMulti (value.getD j 0) = true →
      (∀ k, j < k → k < value.length → sjisMulti (value.getD k 0) = false) →
      encode_to_jis_x_0201 value .strict = .error (.unicodeEncodeError "shift_jis" i (j + 1))) ∧
    ((∃ c ∈ value, sjisEncChar c = none) →
      encode_to_jis_x_0201 value .strict = .error (.unicodeEncodeError "shift_jis" 0 1)) := by
  refine ⟨?_, ?_, ?_⟩
  · exact jis0201_go_replace value.length value 0 [] value.length 0
  · intro i j hsome hi hmi hfi hj hmj hlj
    rw [encode_to_jis_x_0201,
      jis0201_go_strict_multi value.length value 0 [] value.length 0 hsome,
      minMulti_of_first value 0 value.length i hi hmi hfi,
      maxMulti_of_last value 0 0 j hj hmj hlj]
    have h1 : min value.length (0 + i) = i := by omega
    have h2 : max 0 (0 + j + 1) = j + 1 := by omega
    rw [h1, h2]
    simp [Nat.lt_of_lt_of_le hi (le_refl _), hi]
  · intro h
    exact jis0201_go_strict_unencodable value.length value 0 [] value.length 0 h

/-- C9 witness: a value of one ASCII and two hiragana characters around an
ASCII character is rejected in strict mode with the collected range 1..4,
and replace mode turns both hiragana into question marks. -/
theorem C9_witness :
    encode_to_jis_x_0201 [65, 0x3042, 66, 0x3043] .strict =
      .error (.unicodeEncodeError "shift_jis" 1 4) ∧
    encode_to_jis_x_0201 [65, 0x3042] .replace = .ok [65, 63] := by
  constructor
  · exact (C9_jis_x_0201_error_policy [65, 0x3042, 66, 0x3043]).2.1 1 3
      (by decide) (by decide) (by decide)
      (by intro k hk; rw [show k = 0 from by omega]; decide)
      (by decide) (by decide)
      (by intro k hk1 hk2; simp only [List.length_cons, List.length_nil] at hk2; omega)
  · have h := (C9_jis_x_0201_error_policy [65, 0x3042]).1
    rw [show ([65, 0x3042].map jisX0201Byte) = [65, 63] from by decide] at h
    exact h

/-- C9 counterexample: for the value euro-sign then hiragana A, in strict
mode the claim as stated predicts a UnicodeEncodeError with range 1..2
(the only character that encodes to more than one byte is at index 1);
the code instead raises the per-character failure for the euro sign with
range 0..1. -/
theorem C9_counterexample :
    encode_to_jis_x_0201 [0x20AC, 0x3042] .strict =
      .error (.unicodeEncodeError "shift_jis" 0 1) ∧
    encode_to_jis_x_0201 [0x20AC, 0x3042] .strict ≠
      .error (.unicodeEncodeError "shift_jis" 1 2) := by decide

/-- C2: in strict mode, when the whole-string pass failed for every codec
(here: the custom JIS X 0201 encoder rejects hiragana A with the single
declared codec shift_jis) the source re-raises by calling the plain
`value.encode(encodings[0])` - but plain shift_jis happily encodes
hiragana, so nothing is raised and the function falls through to the
lenient branch, emitting a warning and returning the replacement-character
encoding (a single question mark byte), contradicting its own docstring
and the `force raising a valid UnicodeEncodeError` comment. -/
theorem C2_strict_fallback_returns_replacement :
    encode_string_impl [0x3042] "shift_jis" .strict =
      .error (.unicodeEncodeError "shift_jis" 0 1) ∧
    pyEncode "shift_jis" [0x3042] .strict = .ok [0x82, 0xA0] ∧
    encode_string [0x3042] ["shift_jis"] true = (.ok [63], [encodeFailWarning]) := by decide

/-- C7: on the fast path (no escape byte anywhere in the value),
`decode_string` decodes the whole value with the first codec of the list;
with an unknown first codec it raises in strict mode and falls back to the
default codec with a warning in lenient mode; with bytes invalid for the
first codec it raises in strict mode and returns the replacement-character
decoding with a warning, never raising, in lenient mode. -/
theorem C7_fast_path_policy (value : List Nat) (first : String) (restE : List String)
    (delims : List Nat) (hesc : (27 : Nat) ∉ value) :
    (∀ c t, lookupCodec first = some c → c.dec value = some t →
      ∀ strict, decode_string value (first :: restE) delims strict = (.ok t, [])) ∧
    (∀ c, lookupCodec first = some c → c.dec value = none →
      decode_string value (first :: restE) delims true =
        (.error (.unicodeDecodeError first), []) ∧
      decode_string value (first :: restE) delims false =
        (.ok (c.decR value), [decodeFailWarning])) ∧
    (lookupCodec first = none →
      decode_string value (first :: restE) delims true = (.error (.lookupError first), []) ∧
      decode_string value (first :: restE) delims false =
        (pyDecode default_encoding value, [unknownEncodingWarning])) := by
  refine ⟨?_, ?_, ?_⟩
  · intro c t hc ht strict
    simp [decode_string, hesc, hc, ht]
  · intro c hc ht
    constructor <;> simp [decode_string, hesc, hc, ht]
  · intro hc
    constructor <;> simp [decode_string, hesc, hc]

/-- C7 witness: decoding ASCII HELLO with an unknown first codec falls
back to the default codec with a warning in lenient mode, and the same
bytes decode directly with a known first codec. -/
theorem C7_witness :
    decode_string [72, 69, 76, 76, 79] ["bogus"] [13] false =
      (.ok [72, 69, 76, 76, 79], [unknownEncodingWarning]) ∧
    decode_string [72, 69, 76, 76, 79] ["iso8859"] [13] false =
      (.ok [72, 69, 76, 76, 79], []) := by
  constructor
  · have h := ((C7_fast_path_policy [72, 69, 76, 76, 79] "bogus" [] [13] (by decide)).2.2
      rfl).2
    rw [h]; rfl
  · exact (C7_fast_path_policy [72, 69, 76, 76, 79] "iso8859" [] [13] (by decide)).1
      latin1Codec [72, 69, 76, 76, 79] rfl rfl false

/-- C10: `convert_encodings` never mutates its argument: in the heap model
the caller object at reference `r` holds the same list after the call,
because the source copies the list before its only in-place update. -/
theorem C10_no_argument_mutation (heap : List (List String)) (r : Nat) (strict : Bool)
    (h : r < heap.length) :
    ((convert_encodings_ref heap r strict).1).getD r [] = heap.getD r [] := by
  have hback : ∀ (x : List String), (heap ++ [x]).getD r [] = heap.getD r [] :=
    fun x => getD_append_lt [] heap [x] r h
  unfold convert_encodings_ref
  dsimp only
  rw [getD_append_len [] heap (heap.getD r [])]
  rcases hcopy : heap.getD r [] with _ | ⟨e0, rest⟩
  · dsimp only
    rw [hback []]
    exact hcopy
  · dsimp only
    by_cases he : e0 = ""
    · rw [if_pos he, set_append_len heap (e0 :: rest) ("ISO_IR 6" :: rest), hback]
      exact hcopy
    · rw [if_neg he, hback]
      exact hcopy

/-- C10 witness: a concrete one-object heap is unchanged at the caller's
reference. -/
theorem C10_witness :
    ((convert_encodings_ref [[""], ["GBK", "latin_1"]] 1 false).1).getD 1 [] =
      ["GBK", "latin_1"] := by
  rw [C10_no_argument_mutation [[""], ["GBK", "latin_1"]] 1 false (by decide)]
  rfl

/-! Lemmas about the stand-alone deletion loop and identifier resolution. -/

theorem map_filter_comm (f : Nat → Nat) (p : Nat → Bool) :
    ∀ (l : List Nat), (l.map f).filter p = (l.filter (fun x => p (f x))).map f := by
  intro l
  induction l with
  | nil => rfl
  | cons a as ih =>
    simp only [List.map_cons, List.filter_cons]
    cases hpf : p (f a) <;> simp [hpf, ih]

theorem getD_eraseIdx_lt {α : Type} (d : α) :
    ∀ (l : List α) (n i : Nat), i < n → (l.eraseIdx n).getD i d = l.getD i d := by
  intro l
  induction l with
  | nil => intro n i _h; rfl
  | cons a as ih =>
    intro n i h
    cases n with
    | zero => omega
    | succ m =>
      cases i with
      | zero => rfl
      | succ j =>
        show (as.eraseIdx m).getD j d = as.getD j d
        exact ih m j (by omega)

theorem drop_eraseIdx {α : Type} (l : List α) (n : Nat) (h : n < l.length) :
    (l.eraseIdx n).drop n = l.drop (n + 1) := by
  rw [List.eraseIdx_eq_take_drop_succ]
  have hlen : (l.take n).length = n := by
    rw [List.length_take]
    omega
  calc (l.take n ++ l.drop (n + 1)).drop n
      = (l.take n ++ l.drop (n + 1)).drop (l.take n).length := by rw [hlen]
    _ = l.drop (n + 1) := List.drop_left _ _

theorem standalone_fold (encodings : List String) :
    ∀ (n : Nat) (p0 : String) (py w : List String), n ≤ py.length →
      (List.range n).reverse.foldl (standalone_step encodings) (p0 :: py, w)
        = (p0 :: (((List.range n).filter
              (fun i => !decide ((encodings.drop 1).getD i "" ∈ STAND_ALONE_ENCODINGS))).map
              (fun i => py.getD i "") ++ py.drop n),
           w ++ List.replicate (((List.range n).filter
              (fun i => decide ((encodings.drop 1).getD i "" ∈ STAND_ALONE_ENCODINGS))).length)
              standaloneItemWarning) := by
  intro n
  induction n with
  | zero => intro p0 py w _h; simp
  | succ n ih =>
    intro p0 py w h
    rw [List.range_succ, List.reverse_append, List.reverse_singleton, List.foldl_append,
      List.foldl_cons, List.foldl_nil]
    have hlt : n < py.length := by omega
    by_cases hC : (encodings.drop 1).getD n "" ∈ STAND_ALONE_ENCODINGS
    · have hstep : standalone_step encodings (p0 :: py, w) n =
          (p0 :: py.eraseIdx n, w ++ [standaloneItemWarning]) := by
        unfold standalone_step
        rw [if_pos hC]
        rfl
      have hlen2 : n ≤ (py.eraseIdx n).length := by
        rw [List.length_eraseIdx]
        simp only [hlt, if_true]
        omega
      rw [hstep, ih p0 (py.eraseIdx n) (w ++ [standaloneItemWarning]) hlen2,
        List.filter_append, List.filter_append]
      have hdec : decide ((encodings.drop 1).getD n "" ∈ STAND_ALONE_ENCODINGS) = true :=
        decide_eq_true hC
      have hfN : ([n].filter
          (fun i => !decide ((encodings.drop 1).getD i "" ∈ STAND_ALONE_ENCODINGS))) = [] := by
        simp only [List.filter_cons, List.filter_nil, hdec, Bool.not_true, Bool.false_eq_true,
          if_false]
      have hfP : ([n].filter
          (fun i => decide ((encodings.drop 1).getD i "" ∈ STAND_ALONE_ENCODINGS))) = [n] := by
        simp only [List.filter_cons, List.filter_nil, hdec, if_true]
      rw [hfN, hfP, List.append_nil]
      have hmapC : ((List.range n).filter
            (fun i => !decide ((encodings.drop 1).getD i "" ∈ STAND_ALONE_ENCODINGS))).map
              (fun i => (py.eraseIdx n).getD i "") =
          ((List.range n).filter
            (fun i => !decide ((encodings.drop 1).getD i "" ∈ STAND_ALONE_ENCODINGS))).map
              (fun i => py.getD i "") := by
        apply List.map_congr_left
        intro i hi
        exact getD_eraseIdx_lt "" py n i (List.mem_range.mp (List.mem_of_mem_filter hi))
      rw [hmapC, drop_eraseIdx py n hlt, List.length_append, List.length_singleton,
        List.append_assoc]
      have hrep : [standaloneItemWarning] ++ List.replicate (((List.range n).filter
            (fun i => decide ((encodings.drop 1).getD i "" ∈ STAND_ALONE_ENCODINGS))).length)
            standaloneItemWarning =
          List.replicate (((List.range n).filter
            (fun i => decide ((encodings.drop 1).getD i "" ∈ STAND_ALONE_ENCODINGS))).length + 1)
            standaloneItemWarning := by
        rw [List.replicate_succ]
        rfl
      rw [hrep]
    · have hstep : standalone_step encodings (p0 :: py, w) n = (p0 :: py, w) := by
        unfold standalone_step
        rw [if_neg hC]
      rw [hstep, ih p0 py w (by omega), List.filter_append, List.filter_append]
      have hdec : decide ((encodings.drop 1).getD n "" ∈ STAND_ALONE_ENCODINGS) = false :=
        decide_eq_false hC
      have hfN : ([n].filter
          (fun i => !decide ((encodings.drop 1).getD i "" ∈ STAND_ALONE_ENCODINGS))) = [n] := by
        simp only [List.filter_cons, List.filter_nil, hdec, Bool.not_false, if_true]
      have hfP : ([n].filter
          (fun i => decide ((encodings.drop 1).getD i "" ∈ STAND_ALONE_ENCODINGS))) = [] := by
        simp only [List.filter_cons, List.filter_nil, hdec, Bool.false_eq_true, if_false]
      rw [hfN, hfP, List.append_nil]
      have hdrop : py.drop n = py.getD n "" :: py.drop (n + 1) := by
        rw [List.drop_eq_getElem_cons hlt, List.getD_eq_getElem py "" hlt]
      rw [hdrop, List.map_append, List.map_singleton, List.append_assoc]
      rfl

theorem range_filter_keep :
    ∀ (tail ptail : List String), ptail.length = tail.length →
      ((List.range tail.length).filter
          (fun i => !decide (tail.getD i "" ∈ STAND_ALONE_ENCODINGS))).map
          (fun i => ptail.getD i "") = keepNonStandalone tail ptail := by
  intro tail
  induction tail with
  | nil =>
    intro ptail _h
    cases ptail <;> simp [keepNonStandalone]
  | cons e es ih =>
    intro ptail h
    cases ptail with
    | nil => simp at h
    | cons p ps =>
      have hlen : ps.length = es.length := by simpa using h
      have hg1 : ∀ x : Nat, (e :: es).getD (Nat.succ x) "" = es.getD x "" := fun x => rfl
      have hg2 : ∀ x : Nat, (p :: ps).getD (Nat.succ x) "" = ps.getD x "" := fun x => rfl
      rw [List.length_cons, List.range_succ_eq_map, List.filter_cons]
      by_cases he : e ∈ STAND_ALONE_ENCODINGS
      · have hd : (!decide ((e :: es).getD 0 "" ∈ STAND_ALONE_ENCODINGS)) = false := by
          simp [decide_eq_true he]
        simp only [hd, Bool.false_eq_true, if_false]
        rw [map_filter_comm, List.map_map]
        simp only [hg1]
        have hfun : ((fun i => (p :: ps).getD i "") ∘ Nat.succ) = (fun i => ps.getD i "") := by
          funext x
          simp [Function.comp, hg2]
        rw [hfun, ih ps hlen]
        simp [keepNonStandalone, he]
      · have hd : (!decide ((e :: es).getD 0 "" ∈ STAND_ALONE_ENCODINGS)) = true := by
          simp [decide_eq_false he]
        simp only [hd, if_true]
        rw [List.map_cons, map_filter_comm, List.map_map]
        simp only [hg1]
        have hfun : ((fun i => (p :: ps).getD i "") ∘ Nat.succ) = (fun i => ps.getD i "") := by
          funext x
          simp [Function.comp, hg2]
        rw [hfun, ih ps hlen]
        simp [keepNonStandalone, he]

theorem range_filter_count :
    ∀ (tail : List String),
      ((List.range tail.length).filter
          (fun i => decide (tail.getD i "" ∈ STAND_ALONE_ENCODINGS))).length =
        (tail.filter (fun e => decide (e ∈ STAND_ALONE_ENCODINGS))).length := by
  intro tail
  induction tail with
  | nil => rfl
  | cons e es ih =>
    have hg1 : ∀ x : Nat, (e :: es).getD (Nat.succ x) "" = es.getD x "" := fun x => rfl
    rw [List.length_cons, List.range_succ_eq_map, List.filter_cons, List.filter_cons]
    by_cases he : e ∈ STAND_ALONE_ENCODINGS
    · have hd : decide ((e :: es).getD 0 "" ∈ STAND_ALONE_ENCODINGS) = true :=
        decide_eq_true he
      have hd2 : decide (e ∈ STAND_ALONE_ENCODINGS) = true := decide_eq_true he
      simp only [hd, hd2, if_true, List.length_cons]
      rw [map_filter_comm]
      simp only [hg1, List.length_map]
      rw [ih]
    · have hd : decide ((e :: es).getD 0 "" ∈ STAND_ALONE_ENCODINGS) = false :=
        decide_eq_false he
      have hd2 : decide (e ∈ STAND_ALONE_ENCODINGS) = false := decide_eq_false he
      simp only [hd, hd2, Bool.false_eq_true, if_false]
      rw [map_filter_comm]
      simp only [hg1, List.length_map]
      exact ih

/-- Characterization of `_handle_illegal_standalone_encodings`: a
stand-alone first declared encoding keeps only the first resolved codec
with one warning; otherwise exactly the resolved codecs whose declared
identifier is stand-alone are removed, in order, with one warning each. -/
theorem handle_illegal_spec (e0 p0 : String) (tail ptail : List String)
    (hlen : ptail.length = tail.length) :
    (e0 ∈ STAND_ALONE_ENCODINGS →
      handle_illegal_standalone_encodings (e0 :: tail) (p0 :: ptail) =
        ((p0 :: ptail).take 1, [standaloneHeadWarning])) ∧
    (e0 ∉ STAND_ALONE_ENCODINGS →
      handle_illegal_standalone_encodings (e0 :: tail) (p0 :: ptail) =
        (p0 :: keepNonStandalone tail ptail,
         List.replicate
           ((tail.filter (fun e => decide (e ∈ STAND_ALONE_ENCODINGS))).length)
           standaloneItemWarning)) := by
  constructor
  · intro he
    unfold handle_illegal_standalone_encodings
    rw [if_pos (show (e0 :: tail).headD "" ∈ STAND_ALONE_ENCODINGS from he)]
  · intro he
    unfold handle_illegal_standalone_encodings
    rw [if_neg (show ¬ (e0 :: tail).headD "" ∈ STAND_ALONE_ENCODINGS from he)]
    have hn : (e0 :: tail).length - 1 = tail.length := by simp
    rw [hn, standalone_fold (e0 :: tail) tail.length p0 ptail [] hlen.symm.le]
    simp only [List.drop_succ_cons, List.drop_zero]
    have hdrop : ptail.drop tail.length = [] := by
      rw [← hlen]
      exact List.drop_length ptail
    rw [hdrop, List.append_nil, range_filter_keep tail ptail hlen, range_filter_count tail,
      List.nil_append]

/-- C3: for a multi-valued declared list a stand-alone first identifier
keeps only the first resolved codec and discards the rest with a warning,
while a stand-alone identifier at any later position removes exactly that
resolved entry (one warning each), keeping all the others in order; in
particular resolving ISO_IR 192 followed by ISO 2022 IR 100 yields the
one-element UTF-8 codec list with a warning. -/
theorem C3_standalone_handling :
    (∀ (e0 p0 : String) (tail ptail : List String), ptail.length = tail.length →
      ((e0 ∈ STAND_ALONE_ENCODINGS →
        handle_illegal_standalone_encodings (e0 :: tail) (p0 :: ptail) =
          ((p0 :: ptail).take 1, [standaloneHeadWarning])) ∧
       (e0 ∉ STAND_ALONE_ENCODINGS →
        handle_illegal_standalone_encodings (e0 :: tail) (p0 :: ptail) =
          (p0 :: keepNonStandalone tail ptail,
           List.replicate
             ((tail.filter (fun e => decide (e ∈ STAND_ALONE_ENCODINGS))).length)
             standaloneItemWarning)))) ∧
    (∀ strict, convert_encodings ["ISO_IR 192", "ISO 2022 IR 100"] strict =
      (.ok ["UTF8"], [standaloneHeadWarning])) := by
  constructor
  · intro e0 p0 tail ptail hlen
    exact handle_illegal_spec e0 p0 tail ptail hlen
  · intro strict
    cases strict <;> decide

/-- C3 witness: a stand-alone encoding in second position of a
three-element list is removed with one warning, and the concrete
stand-alone-first resolution from the claim. -/
theorem C3_witness :
    handle_illegal_standalone_encodings ["ISO 2022 IR 100", "GBK", "ISO 2022 IR 13"]
        ["latin_1", "GBK", "shift_jis"] = (["latin_1", "shift_jis"], [standaloneItemWarning]) ∧
    handle_illegal_standalone_encodings ["ISO_IR 192", "ISO 2022 IR 100"] ["UTF8", "latin_1"] =
      (["UTF8"], [standaloneHeadWarning]) := by
  constructor
  · have h := (C3_standalone_handling.1 "ISO 2022 IR 100" "latin_1" ["GBK", "ISO 2022 IR 13"]
      ["GBK", "shift_jis"] (by decide)).2 (by decide)
    rw [h]
    rfl
  · have h := (C3_standalone_handling.1 "ISO_IR 192" "UTF8" ["ISO 2022 IR 100"] ["latin_1"]
      (by decide)).1 (by decide)
    rw [h]
    rfl

/-! Lemmas for the fixed-point behaviour of `convert_encodings`. -/

theorem registry_facts (e : String) (he : e ∈ codec_registry_names) :
    (python_encoding.lookup e = none ∨ python_encoding.lookup e = some e) ∧
    matchIsoIrTypo e = false ∧ matchIso2022Typo e = false := by
  simp only [codec_registry_names, List.mem_cons, List.not_mem_nil, or_false] at he
  rcases he with rfl | rfl | rfl | rfl | rfl | rfl | rfl | rfl | rfl | rfl | rfl | rfl | rfl |
    rfl | rfl <;> exact ⟨by decide, by decide, by decide⟩

theorem convert_each_valid (strict : Bool) :
    ∀ (l : List String), (∀ e ∈ l, e ∈ codec_registry_names) →
      convert_each strict l = (.ok l, []) := by
  intro l
  induction l with
  | nil => intro _h; rfl
  | cons e rest ih =>
    intro h
    obtain ⟨hlk, ht1, ht2⟩ := registry_facts e (h e (by simp))
    have hcle : codec_lookup_exists e = true := decide_eq_true (h e (by simp))
    have hhead : (match python_encoding.lookup e with
        | some p => ((.ok p : Except PyErr String), ([] : List String))
        | none => python_encoding_for_corrected_encoding e strict) = (.ok e, []) := by
      rcases hlk with hnone | hsome
      · rw [hnone]
        unfold python_encoding_for_corrected_encoding
        simp only [ht1, ht2, Bool.false_eq_true, if_false]
        simp only [hcle, if_true]
      · rw [hsome]
    simp only [convert_each]
    rw [hhead, ih (fun x hx => h x (by simp [hx]))]
    rfl

theorem keep_id :
    ∀ (a b : List String), (∀ e ∈ a, e ∉ STAND_ALONE_ENCODINGS) → a.length = b.length →
      keepNonStandalone a b = b := by
  intro a
  induction a with
  | nil =>
    intro b _h hlen
    cases b with
    | nil => rfl
    | cons p ps => simp at hlen
  | cons e es ih =>
    intro b h hlen
    cases b with
    | nil => simp at hlen
    | cons p ps =>
      have he : e ∉ STAND_ALONE_ENCODINGS := h e (by simp)
      simp only [keepNonStandalone, he, if_false]
      rw [ih ps (fun x hx => h x (by simp [hx])) (by simpa using hlen)]

/-- C6: the claim is corrected.  `convert_encodings` is a fixed point on
lists of valid Python codec names provided that, when the list has more
than one element, none of its elements is a stand-alone encoding (GBK and
GB18030 are both valid Python codec names and stand-alone encodings, and
are removed or truncate the list); the list must also be non-empty. -/
theorem C6_fixed_point_on_valid_names (encodings : List String) (strict : Bool)
    (hne : encodings ≠ [])
    (hvalid : ∀ e ∈ encodings, e ∈ codec_registry_names)
    (hsa : encodings.length ≤ 1 ∨ ∀ e ∈ encodings, e ∉ STAND_ALONE_ENCODINGS) :
    convert_encodings encodings strict = (.ok encodings, []) := by
  obtain ⟨e0, rest, rfl⟩ := List.exists_cons_of_ne_nil hne
  have h0 : e0 ∈ codec_registry_names := hvalid e0 (by simp)
  have he0 : ¬ e0 = "" := by
    intro h
    rw [h] at h0
    exact absurd h0 (by decide)
  show convert_encodings (e0 :: rest) strict = _
  simp only [convert_encodings]
  rw [if_neg he0]
  unfold convert_encodings_core
  rw [convert_each_valid strict (e0 :: rest) hvalid]
  by_cases hlen : 1 < (e0 :: rest).length
  · simp only [hlen, if_true]
    obtain ⟨p1, rest', rfl⟩ : ∃ p1 rest', rest = p1 :: rest' := by
      cases rest with
      | nil => simp at hlen
      | cons a as => exact ⟨a, as, rfl⟩
    have hnosa : ∀ e ∈ (e0 :: p1 :: rest'), e ∉ STAND_ALONE_ENCODINGS := by
      rcases hsa with hbad | h
      · exfalso
        simp at hbad
      · exact h
    have hspec := (handle_illegal_spec e0 e0 (p1 :: rest') (p1 :: rest') rfl).2
      (hnosa e0 (by simp))
    rw [hspec, keep_id (p1 :: rest') (p1 :: rest')
      (fun x hx => hnosa x (by simp [hx])) rfl]
    have hfil : (p1 :: rest').filter (fun e => decide (e ∈ STAND_ALONE_ENCODINGS)) = [] := by
      rw [List.filter_eq_nil_iff]
      intro x hx
      have := hnosa x (by simp [hx])
      simpa using this
    rw [hfil]
    rfl
  · simp only [hlen, if_false]

/-- C6 witness: a two-element list of valid, non-stand-alone codec names
is returned unchanged. -/
theorem C6_witness :
    convert_encodings ["latin_1", "shift_jis"] false = (.ok ["latin_1", "shift_jis"], []) :=
  C6_fixed_point_on_valid_names ["latin_1", "shift_jis"] false (by decide) (by decide)
    (Or.inr (by decide))

/-- C6 counterexample: GBK and latin_1 are both valid concrete Python
codec names, yet resolving the two-element list drops the second entry
because GBK is a stand-alone encoding, so the list is not returned
unchanged. -/
theorem C6_counterexample :
    ("GBK" ∈ codec_registry_names ∧ "latin_1" ∈ codec_registry_names) ∧
    (convert_encodings ["GBK", "latin_1"] false).1 = .ok ["GBK"] ∧
    (convert_encodings ["GBK", "latin_1"] false).1 ≠ .ok ["GBK", "latin_1"] := by decide

/-! Lemmas about fragment splitting and the escape path of
`decode_string`. -/

theorem split_accum_eq :
    ∀ (rest cur : List Nat), cur ≠ [] →
      split_accum rest cur =
        (cur.reverse ++ rest.takeWhile (fun x => decide (x ≠ 27))) ::
          split_fragments_go (rest.dropWhile (fun x => decide (x ≠ 27))) := by
  intro rest
  induction rest with
  | nil =>
    intro cur _h
    rw [split_accum, List.takeWhile_nil, List.dropWhile_nil, split_fragments_go,
      List.append_nil]
  | cons b rest ih =>
    intro cur hcur
    by_cases hb : b = 27
    · subst hb
      simp only [split_accum, if_pos rfl]
      rw [ih [27] (by simp)]
      have ht : (27 :: rest).takeWhile (fun x => decide (x ≠ 27)) = [] := by
        simp [List.takeWhile_cons]
      have hd : (27 :: rest).dropWhile (fun x => decide (x ≠ 27)) = 27 :: rest := by
        simp [List.dropWhile_cons]
      rw [ht, hd, List.append_nil, split_fragments_go]
      rfl
    · simp only [split_accum]
      rw [if_neg hb, ih (b :: cur) (by simp)]
      have ht : (b :: rest).takeWhile (fun x => decide (x ≠ 27)) =
          b :: rest.takeWhile (fun x => decide (x ≠ 27)) := by
        simp [List.takeWhile_cons, hb]
      have hd : (b :: rest).dropWhile (fun x => decide (x ≠ 27)) =
          rest.dropWhile (fun x => decide (x ≠ 27)) := by
        simp [List.dropWhile_cons, hb]
      rw [ht, hd, List.reverse_cons, List.append_assoc]
      rfl

theorem split_fragments_eq (value : List Nat) :
    split_fragments value =
      (if value.takeWhile (fun x => decide (x ≠ 27)) = [] then []
       else [value.takeWhile (fun x => decide (x ≠ 27))]) ++
        split_fragments_go (value.dropWhile (fun x => decide (x ≠ 27))) := by
  cases value with
  | nil =>
    simp only [split_fragments, List.takeWhile_nil, List.dropWhile_nil]
    rw [split_fragments_go]
    simp
  | cons b rest =>
    by_cases hb : b = 27
    · subst hb
      show split_accum rest [27] = _
      rw [split_accum_eq rest [27] (by simp)]
      have ht : (27 :: rest).takeWhile (fun x => decide (x ≠ 27)) = [] := by
        simp [List.takeWhile_cons]
      have hd : (27 :: rest).dropWhile (fun x => decide (x ≠ 27)) = 27 :: rest := by
        simp [List.dropWhile_cons]
      rw [ht, hd, if_pos rfl, List.nil_append, split_fragments_go]
      rfl
    · show split_accum rest [b] = _
      rw [split_accum_eq rest [b] (by simp)]
      have ht : (b :: rest).takeWhile (fun x => decide (x ≠ 27)) =
          b :: rest.takeWhile (fun x => decide (x ≠ 27)) := by
        simp [List.takeWhile_cons, hb]
      have hd : (b :: rest).dropWhile (fun x => decide (x ≠ 27)) =
          rest.dropWhile (fun x => decide (x ≠ 27)) := by
        simp [List.dropWhile_cons, hb]
      rw [ht, hd, if_neg (by simp), List.singleton_append]
      rfl

theorem split_go_flatten : ∀ (l : List Nat), (split_fragments_go l).flatten = l := by
  intro l
  induction l using split_fragments_go.induct with
  | case1 => rw [split_fragments_go]; rfl
  | case2 b rest ih =>
    rw [split_fragments_go]
    rw [List.flatten_cons, ih, List.cons_append,
      List.takeWhile_append_dropWhile]

theorem split_fragments_flatten (value : List Nat) : (split_fragments value).flatten = value := by
  rw [split_fragments_eq value]
  have hsplit := List.takeWhile_append_dropWhile (fun x => decide (x ≠ 27)) value
  by_cases hp : value.takeWhile (fun x => decide (x ≠ 27)) = []
  · rw [if_pos hp]
    rw [hp, List.nil_append] at hsplit
    rw [List.nil_append, split_go_flatten, hsplit]
  · rw [if_neg hp]
    rw [List.singleton_append, List.flatten_cons, split_go_flatten, hsplit]

theorem dropWhile_head27 :
    ∀ (l : List Nat), l.dropWhile (fun x => decide (x ≠ 27)) = [] ∨
      (l.dropWhile (fun x => decide (x ≠ 27))).head? = some 27 := by
  intro l
  induction l with
  | nil => exact Or.inl rfl
  | cons a as ih =>
    by_cases ha : a = 27
    · right
      rw [List.dropWhile_cons]
      simp [ha]
    · rw [List.dropWhile_cons]
      simpa [ha] using ih

theorem split_go_frags :
    ∀ (l : List Nat), (l = [] ∨ l.head? = some 27) →
      ∀ f ∈ split_fragments_go l, f.head? = some 27 ∧ ∀ b ∈ f.drop 1, b ≠ 27 := by
  intro l
  induction l using split_fragments_go.induct with
  | case1 =>
    intro _h f hf
    rw [split_fragments_go] at hf
    simp at hf
  | case2 b rest ih =>
    intro h f hf
    have hb : b = 27 := by
      rcases h with h | h
      · exact absurd h (by simp)
      · simpa using h
    rw [split_fragments_go] at hf
    rcases List.mem_cons.mp hf with rfl | hmem
    · refine ⟨by simp [hb], ?_⟩
      intro x hx
      simp only [List.drop_succ_cons, List.drop_zero] at hx
      have := List.mem_takeWhile_imp hx
      simpa using this
    · exact ih (dropWhile_head27 rest) f hmem

theorem decode_fragments_forall2 (E : List String) (D : List Nat) (S : Bool) :
    ∀ (fs ts : List (List Nat)),
      List.Forall₂ (fun f t => (decode_fragment f E D S).1 = .ok t) fs ts →
      (decode_fragments E D S fs).1 = .ok ts.flatten := by
  intro fs ts h
  induction h with
  | nil => rfl
  | @cons f t fs' ts' hft _hrest ih =>
    rw [decode_fragments]
    rcases hfw : decode_fragment f E D S with ⟨r, w⟩
    rw [hfw] at hft
    simp only at hft
    subst hft
    rcases hrec : decode_fragments E D S fs' with ⟨r2, w2⟩
    rw [hrec] at ih
    simp only at ih
    subst ih
    simp [List.flatten_cons]

/-- C8: on a value containing an escape byte, `decode_string` splits the
value into fragments (the maximal run of non-escape bytes first when the
value does not start with the escape byte, then one fragment per escape
byte running up to the next escape byte), the fragments concatenated in
order reconstruct the value exactly, and the decoded result is the
in-order concatenation of the per-fragment decodings. -/
theorem C8_fragment_split_decode (value : List Nat) (encodings : List String)
    (delimiters : List Nat) (strict : Bool) (hesc : (27 : Nat) ∈ value) :
    (split_fragments value).flatten = value ∧
    (∀ f ∈ split_fragments value, f ≠ []) ∧
    (∀ f ∈ split_fragments value, ∀ b ∈ f.drop 1, b ≠ 27) ∧
    (∀ f ∈ (split_fragments value).drop 1, f.head? = some 27) ∧
    (value.head? ≠ some 27 →
      (split_fragments value).head? = some (value.takeWhile (fun x => decide (x ≠ 27)))) ∧
    (∀ ts, List.Forall₂
        (fun f t => (decode_fragment f encodings delimiters strict).1 = .ok t)
        (split_fragments value) ts →
      (decode_string value encodings delimiters strict).1 = .ok ts.flatten) := by
  have hgo := split_go_frags (value.dropWhile (fun x => decide (x ≠ 27)))
    (dropWhile_head27 value)
  refine ⟨split_fragments_flatten value, ?_, ?_, ?_, ?_, ?_⟩
  · intro f hf
    rw [split_fragments_eq value] at hf
    by_cases hp : value.takeWhile (fun x => decide (x ≠ 27)) = []
    · rw [if_pos hp, List.nil_append] at hf
      intro hfe
      subst hfe
      exact absurd (hgo [] hf).1 (by simp)
    · rw [if_neg hp, List.singleton_append] at hf
      rcases List.mem_cons.mp hf with rfl | hmem
      · exact hp
      · intro hfe
        subst hfe
        exact absurd (hgo [] hmem).1 (by simp)
  · intro f hf
    rw [split_fragments_eq value] at hf
    by_cases hp : value.takeWhile (fun x => decide (x ≠ 27)) = []
    · rw [if_pos hp, List.nil_append] at hf
      exact (hgo f hf).2
    · rw [if_neg hp, List.singleton_append] at hf
      rcases List.mem_cons.mp hf with rfl | hmem
      · intro x hx
        have := List.mem_takeWhile_imp (List.mem_of_mem_drop hx)
        simpa using this
      · exact (hgo f hmem).2
  · intro f hf
    rw [split_fragments_eq value] at hf
    by_cases hp : value.takeWhile (fun x => decide (x ≠ 27)) = []
    · rw [if_pos hp, List.nil_append] at hf
      exact (hgo f (List.mem_of_mem_drop hf)).1
    · rw [if_neg hp, List.singleton_append, List.drop_succ_cons, List.drop_zero] at hf
      exact (hgo f hf).1
  · intro hhead
    rw [split_fragments_eq value]
    have hp : value.takeWhile (fun x => decide (x ≠ 27)) ≠ [] := by
      cases value with
      | nil => simp at hesc
      | cons b bs =>
        have hb : b ≠ 27 := by
          intro h
          exact hhead (by simp [h])
        rw [List.takeWhile_cons]
        simp [hb]
    rw [if_neg hp, List.singleton_append]
    rfl
  · intro ts hts
    unfold decode_string
    rw [if_pos hesc]
    exact decode_fragments_forall2 encodings delimiters strict (split_fragments value) ts hts

/-- C8 witness: a concrete two-fragment value (ASCII prefix, then an
escaped latin-1 fragment) decodes to the concatenation of the fragment
decodings. -/
theorem C8_witness :
    (split_fragments [65, 27, 45, 65, 66]).flatten = [65, 27, 45, 65, 66] ∧
    (decode_string [65, 27, 45, 65, 66] ["iso8859", "latin_1"] [13] false).1 =
      .ok [65, 66] := by
  have h := C8_fragment_split_decode [65, 27, 45, 65, 66] ["iso8859", "latin_1"] [13] false
    (by decide)
  refine ⟨h.1, ?_⟩
  have hd := h.2.2.2.2.2 [[65], [66]] ?_
  · simpa using hd
  · have hs : split_fragments [65, 27, 45, 65, 66] = [[65], [27, 45, 65, 66]] := by decide
    rw [hs]
    refine List.Forall₂.cons (by decide) (List.Forall₂.cons (by decide) List.Forall₂.nil)

/-! Lemmas about `findIdx?` and the escaped-fragment decoder. -/

theorem findIdx?_go_first {p : Nat → Bool} :
    ∀ (l : List Nat) (i s : Nat), i < l.length → p (l.getD i 0) = true →
      (∀ j, j < i → p (l.getD j 0) = false) → l.findIdx? p s = some (s + i) := by
  intro l
  induction l with
  | nil => intro i s h; simp at h
  | cons a as ih =>
    intro i s hlen hp hfirst
    cases i with
    | zero =>
      have ha : p a = true := by simpa using hp
      simp only [List.findIdx?, ha, if_true]
      rfl
    | succ j =>
      have ha : p a = false := by simpa using hfirst 0 (by omega)
      simp only [List.findIdx?, ha, Bool.false_eq_true, if_false]
      rw [ih j (s + 1) (by simpa using hlen) (by simpa using hp)
        (fun j' hj' => by simpa using hfirst (j' + 1) (by omega))]
      congr 1
      omega

theorem findIdx?_first {p : Nat → Bool} (l : List Nat) (i : Nat) (hlen : i < l.length)
    (hp : p (l.getD i 0) = true) (hfirst : ∀ j, j < i → p (l.getD j 0) = false) :
    l.findIdx? p = some i := by
  have := findIdx?_go_first l i 0 hlen hp hfirst
  simpa using this

/-- C4: for a fragment starting with a recognized escape code whose codec
is declared (or is the default) and is not self-delimiting, the fragment
decoder strips the escape bytes; when a delimiter first occurs at index i
of the remainder it decodes the bytes before i with the escape-selected
codec and the bytes from i on (delimiter included) with the first declared
codec and concatenates; with no delimiter it decodes the whole remainder
with the escape-selected codec. -/
theorem C4_escaped_fragment_delimiter_split (byte_str : List Nat) (e0 : String)
    (restE : List String) (delimiters : List Nat) (strict : Bool) (enc : String) (seqLen : Nat)
    (hseq : seqLen =
      if byte_str.take 3 = [27, 36, 40] ∨ byte_str.take 3 = [27, 36, 41] then 4 else 3)
    (henc : codes_to_encodings_lookup (byte_str.take seqLen) = some enc)
    (hdecl : enc ∈ (e0 :: restE) ∨ enc = default_encoding)
    (hhand : enc ∉ handled_encodings) :
    (∀ i, i < (byte_str.drop seqLen).length →
      (byte_str.drop seqLen).getD i 0 ∈ delimiters →
      (∀ j, j < i → (byte_str.drop seqLen).getD j 0 ∉ delimiters) →
      decode_escaped_fragment byte_str (e0 :: restE) delimiters strict =
        ((pyDecode enc ((byte_str.drop seqLen).take i)).bind fun a =>
          (pyDecode e0 ((byte_str.drop seqLen).drop i)).bind fun b =>
            pure (a ++ b), [])) ∧
    ((∀ b ∈ byte_str.drop seqLen, b ∉ delimiters) →
      decode_escaped_fragment byte_str (e0 :: restE) delimiters strict =
        (pyDecode enc (byte_str.drop seqLen), [])) := by
  constructor
  · intro i hi hmem hfirst
    unfold decode_escaped_fragment
    dsimp only
    rw [← hseq, henc]
    dsimp only [Option.getD]
    rw [if_pos hdecl, if_neg hhand,
      findIdx?_first (byte_str.drop seqLen) i hi (decide_eq_true hmem)
        (fun j hj => decide_eq_false (hfirst j hj))]
    rfl
  · intro hnone
    unfold decode_escaped_fragment
    dsimp only
    rw [← hseq, henc]
    dsimp only [Option.getD]
    rw [if_pos hdecl, if_neg hhand,
      List.findIdx?_eq_none_iff.mpr (fun x hx => decide_eq_false (hnone x hx))]

/-- C4 witness: an escaped latin-1 fragment with a carriage-return
delimiter decodes as latin-1 before the delimiter and as the first
declared codec from the delimiter on; the same fragment without a
delimiter decodes entirely with latin-1. -/
theorem C4_witness :
    decode_escaped_fragment [27, 45, 65, 66, 13, 67] ["iso8859", "latin_1"] [13] false =
      (.ok [66, 13, 67], []) ∧
    decode_escaped_fragment [27, 45, 65, 66, 67] ["iso8859", "latin_1"] [13] false =
      (.ok [66, 67], []) := by
  have h := C4_escaped_fragment_delimiter_split [27, 45, 65, 66, 13, 67] "iso8859" ["latin_1"]
    [13] false "latin_1" 3 (by decide) (by decide) (by decide) (by decide)
  have h2 := C4_escaped_fragment_delimiter_split [27, 45, 65, 66, 67] "iso8859" ["latin_1"]
    [13] false "latin_1" 3 (by decide) (by decide) (by decide) (by decide)
  constructor
  · have := h.1 1 (by decide) (by decide)
      (by intro j hj; rw [show j = 0 from by omega]; decide)
    rw [this]
    rfl
  · have := h2.2 (by decide)
    rw [this]
    rfl

/-! Lemmas for the shift_jis round trip. -/

theorem encCharsStrict_error {f : Nat → Option (List Nat)} :
    ∀ (l : List Nat) (i : Nat), (∃ c ∈ l, f c = none) →
      ∃ s e, encCharsStrict f l i = .error (s, e) := by
  intro l
  induction l with
  | nil => intro i h; simp at h
  | cons c cs ih =>
    intro i h
    cases hc : f c with
    | none => exact ⟨i, i + 1, by simp [encCharsStrict, hc]⟩
    | some bs =>
      have hw : ∃ c ∈ cs, f c = none := by
        rcases h with ⟨w, hw1, hw2⟩
        rcases List.mem_cons.mp hw1 with rfl | hmem
        · exact absurd hc (by simp [hw2])
        · exact ⟨w, hmem, hw2⟩
      obtain ⟨s, e, hse⟩ := ih (i + 1) hw
      exact ⟨s, e, by simp [encCharsStrict, hc, hse, Except.map]⟩

theorem latin1_encS_ok :
    ∀ (l : List Nat) (i : Nat), (∀ c ∈ l, c < 256) →
      encCharsStrict (fun c => if c < 256 then some [c] else none) l i = .ok l := by
  intro l
  induction l with
  | nil => intro i _h; rfl
  | cons c cs ih =>
    intro i h
    have hc : c < 256 := h c (by simp)
    simp [encCharsStrict, hc, ih (i + 1) (fun x hx => h x (by simp [hx])), Except.map]

theorem sjis_single_byte {c : Nat} (h : c < 128 ∨ (0xFF61 ≤ c ∧ c ≤ 0xFF9F)) :
    ∃ b, sjisEncChar c = some [b] := by
  rcases h with h | h
  · exact ⟨c, sjisEncChar_ascii h⟩
  · exact ⟨c - 0xFF61 + 0xA1, sjisEncChar_kata h.1 h.2⟩

theorem sjisDec_map :
    ∀ (value : List Nat), (∀ c ∈ value, c < 128 ∨ (0xFF61 ≤ c ∧ c ≤ 0xFF9F)) →
      sjisDec (value.map jisX0201Byte) = some value := by
  intro value
  induction value with
  | nil => intro _h; rfl
  | cons c cs ih =>
    intro h
    have ihr := ih (fun x hx => h x (by simp [hx]))
    rcases h c (by simp) with hc | hc
    · have hb : jisX0201Byte c = c := jisX0201Byte_of_single (sjisEncChar_ascii hc)
      rw [List.map_cons, hb, sjisDec.eq_def]
      simp [hc, ihr]
    · have hb : jisX0201Byte c = c - 0xFF61 + 0xA1 :=
        jisX0201Byte_of_single (sjisEncChar_kata hc.1 hc.2)
      rw [List.map_cons, hb, sjisDec.eq_def]
      have h1 : ¬ (c - 0xFF61 + 0xA1) < 128 := by omega
      have h2 : 0xA1 ≤ c - 0xFF61 + 0xA1 ∧ c - 0xFF61 + 0xA1 ≤ 0xDF := by omega
      have h3 : 0xFF61 + (c - 0xFF61 + 0xA1) - 0xA1 = c := by omega
      simp [h1, h2, ihr, h3]

/-- C5: the claim is corrected.  For a non-empty run of printable ASCII
followed by a non-empty run of half-width katakana, with declared codecs
`[default, shift_jis]`, the whole-string pass already succeeds with the
repository's JIS X 0201 encoder (ASCII and katakana are both single-byte
in it), so the output is the shift_jis escape code followed by the ASCII
bytes then the katakana bytes: the escape code appears exactly once, at
the very beginning, not at the ASCII/katakana switch point, and decoding
the produced bytes with the same codec list reproduces the original text
(delimiters are control bytes below 0x20, which do not occur in the
output). -/
theorem C5_shift_jis_mixed_encoding (A K delims : List Nat) (strict : Bool)
    (hA : A ≠ []) (hK : K ≠ [])
    (hAc : ∀ c ∈ A, 32 ≤ c ∧ c < 128) (hKc : ∀ c ∈ K, 0xFF61 ≤ c ∧ c ≤ 0xFF9F)
    (hd : ∀ d ∈ delims, d < 32) :
    encode_string (A ++ K) ["iso8859", "shift_jis"] strict =
      (.ok ([27, 41, 73] ++ A ++ K.map (fun c => c - 0xFF61 + 0xA1)), []) ∧
    ([27, 41, 73] ++ A ++ K.map (fun c => c - 0xFF61 + 0xA1)).count 27 = 1 ∧
    (decode_string ([27, 41, 73] ++ A ++ K.map (fun c => c - 0xFF61 + 0xA1))
        ["iso8859", "shift_jis"] delims strict).1 = .ok (A ++ K) := by
  have hrep : ∀ c ∈ A ++ K, c < 128 ∨ (0xFF61 ≤ c ∧ c ≤ 0xFF9F) := by
    intro c hc
    rcases List.mem_append.mp hc with hc | hc
    · exact Or.inl (hAc c hc).2
    · exact Or.inr (hKc c hc)
  have hmapA : A.map jisX0201Byte = A := by
    rw [List.map_congr_left (fun c hc =>
      jisX0201Byte_of_single (sjisEncChar_ascii (hAc c hc).2))]
    exact List.map_id A
  have hmapK : K.map jisX0201Byte = K.map (fun c => c - 0xFF61 + 0xA1) :=
    List.map_congr_left (fun c hc =>
      jisX0201Byte_of_single (sjisEncChar_kata (hKc c hc).1 (hKc c hc).2))
  have hmap : (A ++ K).map jisX0201Byte = A ++ K.map (fun c => c - 0xFF61 + 0xA1) := by
    rw [List.map_append, hmapA, hmapK]
  -- the whole-string pass fails for the first codec ...
  obtain ⟨k0, ks, rfl⟩ := List.exists_cons_of_ne_nil hK
  have hk0 : 0xFF61 ≤ k0 ∧ k0 ≤ 0xFF9F := hKc k0 (by simp)
  obtain ⟨s, e, hlat⟩ := encCharsStrict_error (f := fun c => if c < 256 then some [c] else none)
    (A ++ k0 :: ks) 0
    ⟨k0, by simp, by show (if k0 < 256 then some [k0] else none) = none; rw [if_neg (by omega)]⟩
  -- ... and succeeds for shift_jis with single bytes throughout
  have hsj : encode_to_jis_x_0201 (A ++ k0 :: ks) .strict =
      .ok ((A ++ k0 :: ks).map jisX0201Byte) :=
    jis0201_go_strict_single (A ++ k0 :: ks).length (A ++ k0 :: ks) 0 []
      (A ++ k0 :: ks).length (fun c hc => sjis_single_byte (hrep c hc))
  have henc : encode_string (A ++ k0 :: ks) ["iso8859", "shift_jis"] strict =
      (.ok ([27, 41, 73] ++ (A ++ k0 :: ks).map jisX0201Byte), []) := by
    unfold encode_string encode_string_go
    have h1 : encode_string_impl (A ++ k0 :: ks) "iso8859" .strict =
        .error (.unicodeEncodeError "iso8859" s e) := by
      unfold encode_string_impl pyEncode lookupCodec
      simp [latin1Codec, hlat]
    rw [h1]
    simp only [PyErr.isUnicodeError, if_true]
    unfold encode_string_go
    have h2 : encode_string_impl (A ++ k0 :: ks) "shift_jis" .strict =
        .ok ((A ++ k0 :: ks).map jisX0201Byte) := by
      unfold encode_string_impl
      rw [if_pos rfl]
      exact hsj
    rw [h2]
    simp [handled_encodings, need_tail_escape_sequence_encodings, encodings_to_codes]
  rw [hmap] at henc
  refine ⟨henc, ?_, ?_⟩
  · have hcA : List.count 27 A = 0 := by
      rw [List.count_eq_zero]
      intro h27
      have := hAc 27 h27
      omega
    have hcK : List.count 27 (List.map (fun c => c - 0xFF61 + 0xA1) (k0 :: ks)) = 0 := by
      rw [List.count_eq_zero]
      intro h27
      obtain ⟨c, hc, hce⟩ := List.mem_map.mp h27
      have := hKc c hc
      omega
    rw [List.append_assoc, List.count_append, List.count_append, hcA, hcK]
    rfl
  · -- decode of the produced bytes
    set Kb := (k0 :: ks).map (fun c => c - 0xFF61 + 0xA1) with hKb
    have hbytes : ∀ b ∈ A ++ Kb, b ≠ 27 ∧ b ∉ delims := by
      intro b hb
      rcases List.mem_append.mp hb with hb | hb
      · have := hAc b hb
        exact ⟨by omega, fun hmem => by have := hd b hmem; omega⟩
      · obtain ⟨c, hc, hce⟩ := List.mem_map.mp hb
        have := hKc c hc
        constructor
        · omega
        · intro hmem
          have := hd b hmem
          omega
    have hfrag : split_fragments ([27, 41, 73] ++ A ++ Kb) = [[27, 41, 73] ++ A ++ Kb] := by
      show split_accum ((41 :: 73 :: (A ++ Kb) : List Nat)) [27] = _
      rw [split_accum_eq _ [27] (by simp)]
      have htk : (41 :: 73 :: (A ++ Kb)).takeWhile (fun x => decide (x ≠ 27)) =
          41 :: 73 :: (A ++ Kb) := by
        apply takeWhile_eq_self_of_all
        intro b hb
        rcases List.mem_cons.mp hb with rfl | hb
        · decide
        rcases List.mem_cons.mp hb with rfl | hb
        · decide
        · simp [(hbytes b hb).1]
      have hdw : (41 :: 73 :: (A ++ Kb)).dropWhile (fun x => decide (x ≠ 27)) = [] := by
        apply dropWhile_eq_nil_of_all
        intro b hb
        rcases List.mem_cons.mp hb with rfl | hb
        · decide
        rcases List.mem_cons.mp hb with rfl | hb
        · decide
        · simp [(hbytes b hb).1]
      rw [htk, hdw, split_fragments_go]
      rfl
    have hdecfrag : decode_fragment ([27, 41, 73] ++ A ++ Kb) ["iso8859", "shift_jis"]
        delims strict = (.ok (A ++ k0 :: ks), []) := by
      unfold decode_fragment
      dsimp only
      have hh : ([27, 41, 73] ++ A ++ Kb).head? = some 27 := rfl
      rw [hh, if_pos rfl]
      have hescfrag : decode_escaped_fragment ([27, 41, 73] ++ A ++ Kb)
          ["iso8859", "shift_jis"] delims strict = (.ok (A ++ k0 :: ks), []) := by
        unfold decode_escaped_fragment
        dsimp only
        have htake : ([27, 41, 73] ++ A ++ Kb).take 3 = [27, 41, 73] := rfl
        rw [htake]
        rw [if_neg (show ¬(([27, 41, 73] : List Nat) = [27, 36, 40] ∨
          ([27, 41, 73] : List Nat) = [27, 36, 41]) from by decide)]
        rw [htake]
        rw [show (codes_to_encodings_lookup ([27, 41, 73] : List Nat)).getD "" =
          "shift_jis" from rfl]
        rw [if_pos (show ("shift_jis" ∈ ["iso8859", "shift_jis"] ∨
          "shift_jis" = default_encoding) from by simp)]
        rw [if_neg (show ¬("shift_jis" ∈ handled_encodings) from by
          simp [handled_encodings])]
        have hdrop : ([27, 41, 73] ++ A ++ Kb).drop 3 = A ++ Kb := by
          show (([27, 41, 73] ++ A) ++ Kb).drop 3 = A ++ Kb
          rw [List.append_assoc]
          rfl
        rw [hdrop, List.findIdx?_eq_none_iff.mpr
          (fun x hx => decide_eq_false (hbytes x hx).2)]
        have hpd : pyDecode "shift_jis" (A ++ Kb) = .ok (A ++ k0 :: ks) := by
          have hA2 : A ++ Kb = (A ++ k0 :: ks).map jisX0201Byte := by rw [hmap, hKb]
          unfold pyDecode lookupCodec
          rw [if_neg (show ¬("shift_jis" = "iso8859" ∨ "shift_jis" = "latin_1") from
            by simp), if_pos rfl]
          dsimp only [sjisCodec]
          rw [hA2, sjisDec_map (A ++ k0 :: ks) hrep]
        rw [hpd]
      rw [hescfrag]
    unfold decode_string
    rw [if_pos (show (27 : Nat) ∈ [27, 41, 73] ++ A ++ Kb by simp)]
    rw [hfrag, decode_fragments, hdecfrag, decode_fragments]
    simp

/-- C5 witness: one ASCII letter and one katakana character. -/
theorem C5_witness :
    encode_string [65, 0xFF71] ["iso8859", "shift_jis"] false =
      (.ok [27, 41, 73, 65, 0xB1], []) ∧
    (decode_string [27, 41, 73, 65, 0xB1] ["iso8859", "shift_jis"] [13] false).1 =
      .ok [65, 0xFF71] := by
  have h := C5_shift_jis_mixed_encoding [65] [0xFF71] [13] false (by decide) (by decide)
    (by decide) (by decide) (by decide)
  constructor
  · have h1 := h.1
    rw [show ([27, 41, 73] ++ [65] ++ [0xFF71].map (fun c => c - 0xFF61 + 0xA1)) =
      [27, 41, 73, 65, 0xB1] from by decide] at h1
    exact h1
  · have h3 := h.2.2
    rw [show ([27, 41, 73] ++ [65] ++ [0xFF71].map (fun c => c - 0xFF61 + 0xA1)) =
      [27, 41, 73, 65, 0xB1] from by decide] at h3
    exact h3

/-- C5 counterexample: for the ASCII letter A followed by katakana A, the
claim as stated predicts output beginning with the unescaped ASCII run
(first byte 65) and the escape code at the switch point; the code instead
emits the escape code first, so the output starts with the escape byte. -/
theorem C5_counterexample :
    (encode_string [65, 0xFF71] ["iso8859", "shift_jis"] false).1 =
      .ok [27, 41, 73, 65, 0xB1] ∧
    ([27, 41, 73, 65, 0xB1].take 1 ≠ [65]) ∧
    (encode_string [65, 0xFF71] ["iso8859", "shift_jis"] false).1 ≠
      .ok [65, 27, 41, 73, 0xB1] := by decide

/-! Lemmas for the iso2022_jp round trip (claim C1). -/

theorem escSpaced_cons (b : Nat) (l : List Nat) :
    escSpaced (b :: l) = true ↔ ((b = 27 → 3 ≤ l.length) ∧ escSpaced l = true) := by
  simp only [escSpaced, Bool.and_eq_true, Bool.or_eq_true, decide_eq_true_eq]
  constructor
  · rintro ⟨h1, h2⟩
    exact ⟨fun hb => h1.resolve_left (fun hne => hne hb), h2⟩
  · rintro ⟨h1, h2⟩
    refine ⟨?_, h2⟩
    by_cases hb : b = 27
    · exact Or.inr (h1 hb)
    · exact Or.inl hb

theorem escSpaced_append_right :
    ∀ (xs ys : List Nat), escSpaced (xs ++ ys) = true → escSpaced ys = true := by
  intro xs
  induction xs with
  | nil => intro ys h; exact h
  | cons x xs ih =>
    intro ys h
    exact ih ys ((escSpaced_cons x (xs ++ ys)).mp h).2

theorem escSpaced_last3 (l : List Nat) (h : escSpaced l = true) :
    l.drop (l.length - 3) ≠ [27, 40, 66] := by
  intro hcontra
  have hsplit : l = l.take (l.length - 3) ++ [27, 40, 66] := by
    conv_lhs => rw [← List.take_append_drop (l.length - 3) l]
    rw [hcontra]
  rw [hsplit] at h
  have htail := escSpaced_append_right _ _ h
  exact absurd htail (by decide)

theorem body_ascii_run :
    ∀ (A w : List Nat), (∀ a ∈ A, a < 128) →
      iso2022Body (A ++ w) false = A ++ iso2022Body w false := by
  intro A
  induction A with
  | nil => intro w _h; rfl
  | cons a A ih =>
    intro w h
    have ha : a < 128 := h a (by simp)
    simp only [List.cons_append, iso2022Body, List.append_eq, if_pos ha]
    rw [ih w (fun x hx => h x (by simp [hx]))]
    simp

theorem body_hira_run :
    ∀ (H w : List Nat), (∀ x ∈ H, 0x3041 ≤ x ∧ x ≤ 0x3093) →
      iso2022Body (H ++ w) true = jisPairs H ++ iso2022Body w true := by
  intro H
  induction H with
  | nil => intro w _h; rfl
  | cons x H ih =>
    intro w h
    have hx := h x (by simp)
    have hx128 : ¬ x < 128 := by omega
    simp only [List.cons_append, iso2022Body, List.append_eq, if_neg hx128, jisPairs]
    rw [ih w (fun y hy => h y (by simp [hy]))]
    simp

theorem body_ascii_peel (A w : List Nat) (hne : A ≠ [])
    (h : ∀ a ∈ A, a < 128) :
    iso2022Body (A ++ w) true = [27, 40, 66] ++ A ++ iso2022Body w false := by
  cases A with
  | nil => exact absurd rfl hne
  | cons a A =>
    have ha : a < 128 := h a (by simp)
    simp only [List.cons_append, iso2022Body, List.append_eq, if_pos ha, if_true]
    rw [body_ascii_run A w (fun x hx => h x (by simp [hx]))]
    simp

theorem body_hira_peel (H w : List Nat) (hne : H ≠ [])
    (h : ∀ x ∈ H, 0x3041 ≤ x ∧ x ≤ 0x3093) :
    iso2022Body (H ++ w) false = [27, 36, 66] ++ jisPairs H ++ iso2022Body w true := by
  cases H with
  | nil => exact absurd rfl hne
  | cons x H =>
    have hx := h x (by simp)
    have hx128 : ¬ x < 128 := by omega
    simp only [List.cons_append, iso2022Body, List.append_eq, if_neg hx128, jisPairs]
    rw [body_hira_run H w (fun y hy => h y (by simp [hy]))]
    simp

theorem jisPairs_mem :
    ∀ (H : List Nat), (∀ x ∈ H, 0x3041 ≤ x) →
      ∀ b ∈ jisPairs H, b = 36 ∨ 33 ≤ b := by
  intro H
  induction H with
  | nil => intro _h b hb; simp [jisPairs] at hb
  | cons x H ih =>
    intro h b hb
    simp only [jisPairs, List.mem_cons] at hb
    rcases hb with rfl | hb
    · exact Or.inl rfl
    rcases hb with rfl | hb
    · right
      have := h x (by simp)
      omega
    · exact ih (fun y hy => h y (by simp [hy])) b hb

theorem dropWhile_head_false {p : Nat → Bool} :
    ∀ (l : List Nat) (b : Nat) (bs : List Nat), l.dropWhile p = b :: bs → p b = false := by
  intro l
  induction l with
  | nil => intro b bs h; exact absurd h (by simp)
  | cons a as ih =>
    intro b bs h
    by_cases hpa : p a = true
    · rw [List.dropWhile_cons, if_pos hpa] at h
      exact ih b bs h
    · rw [List.dropWhile_cons, if_neg hpa] at h
      injection h with h1 _h2
      subst h1
      exact eq_false_of_ne_true hpa

theorem body_head27 (w : List Nat) (m : Bool) (hside : modeFits m w) :
    (iso2022Body w m ++ [27, 36, 66]).head? = some 27 := by
  rcases hside with rfl | ⟨h, t, rfl, hcond⟩
  · rfl
  · cases m with
    | false =>
      have hc : ¬ h < 128 := hcond
      simp [iso2022Body, if_neg hc]
    | true =>
      have hc : h < 128 := hcond
      simp [iso2022Body, if_pos hc]

theorem iso2022Dec_ascii :
    ∀ (l : List Nat), (∀ b ∈ l, b < 128 ∧ b ≠ 27) → iso2022Dec l false = some l := by
  intro l
  induction l with
  | nil => intro _h; rfl
  | cons b bs ih =>
    intro h
    obtain ⟨hb, hb27⟩ := h b (by simp)
    rw [iso2022Dec.eq_def]
    simp only [if_neg hb27, if_pos hb, Bool.false_eq_true, if_false]
    rw [ih (fun x hx => h x (by simp [hx]))]
    rfl

theorem iso2022Dec_pairs :
    ∀ (H : List Nat), (∀ x ∈ H, 0x3041 ≤ x ∧ x ≤ 0x3093) →
      iso2022Dec (jisPairs H) true = some H := by
  intro H
  induction H with
  | nil => intro _h; rfl
  | cons x H ih =>
    intro h
    have hx := h x (by simp)
    simp only [jisPairs]
    rw [iso2022Dec.eq_def]
    simp only [if_neg (show (36 : Nat) ≠ 27 from by decide)]
    rw [if_pos (show True ∧ 33 ≤ x - 0x3041 + 33 ∧ x - 0x3041 + 33 ≤ 115 from
      ⟨trivial, by omega, by omega⟩)]
    rw [ih (fun y hy => h y (by simp [hy])), Option.map_some']
    have h2 : 0x3041 + (x - 0x3041 + 33) - 33 = x := by omega
    rw [h2]
    simp

theorem pyDecode_latin (l : List Nat) : pyDecode "iso8859" l = .ok l := rfl

theorem pyDecode_iso2022_ok {l t : List Nat} (h : iso2022Dec l false = some t) :
    pyDecode "iso2022_jp" l = .ok t := by
  unfold pyDecode lookupCodec
  rw [if_neg (show ¬("iso2022_jp" = "iso8859" ∨ "iso2022_jp" = "latin_1") from by simp),
    if_neg (show ¬("iso2022_jp" = "shift_jis") from by simp),
    if_pos (Or.inl rfl)]
  dsimp only [iso2022Codec]
  rw [h]

theorem iso2022_encS_eq :
    ∀ (v : List Nat) (jis : Bool) (i : Nat),
      (∀ c ∈ v, c < 128 ∨ (0x3041 ≤ c ∧ c ≤ 0x3093)) →
      iso2022EncStrict v jis i =
        .ok (iso2022Body v jis ++ (if endsJis v jis then [27, 40, 66] else [])) := by
  intro v
  induction v with
  | nil => intro jis i _h; cases jis <;> rfl
  | cons c cs ih =>
    intro jis i h
    rcases h c (by simp) with hc | hc
    · rw [iso2022EncStrict.eq_def]
      simp only [if_pos hc]
      rw [ih false (i + 1) (fun x hx => h x (by simp [hx]))]
      simp only [Except.map]
      rw [show iso2022Body (c :: cs) jis =
        (if jis then [27, 40, 66] else []) ++ c :: iso2022Body cs false from by
          simp [iso2022Body, if_pos hc]]
      rw [show endsJis (c :: cs) jis = endsJis cs false from by
        simp [endsJis, if_pos hc]]
      simp
    · have hc128 : ¬ c < 128 := by omega
      rw [iso2022EncStrict.eq_def]
      simp only [if_neg hc128]
      rw [if_pos hc]
      rw [ih true (i + 1) (fun x hx => h x (by simp [hx]))]
      simp only [Except.map]
      rw [show iso2022Body (c :: cs) jis =
        (if jis then [] else [27, 36, 66]) ++ 36 :: (c - 0x3041 + 33) :: iso2022Body cs true from by
          simp [iso2022Body, if_neg hc128]]
      rw [show endsJis (c :: cs) jis = endsJis cs true from by
        simp [endsJis, if_neg hc128]]
      simp

theorem body_escSpaced :
    ∀ (v : List Nat) (jis : Bool),
      (∀ c ∈ v, (c < 128 ∧ c ≠ 27) ∨ (0x3041 ≤ c ∧ c ≤ 0x3093)) →
      escSpaced (iso2022Body v jis) = true := by
  intro v
  induction v with
  | nil => intro jis _h; rfl
  | cons c cs ih =>
    intro jis h
    have ihf := ih false (fun x hx => h x (by simp [hx]))
    have iht := ih true (fun x hx => h x (by simp [hx]))
    rcases h c (by simp) with ⟨hc, hc27⟩ | hc
    · cases jis with
      | false =>
        rw [show iso2022Body (c :: cs) false = c :: iso2022Body cs false from by
          simp [iso2022Body, if_pos hc]]
        exact (escSpaced_cons _ _).mpr ⟨fun hx => absurd hx hc27, ihf⟩
      | true =>
        rw [show iso2022Body (c :: cs) true =
          27 :: 40 :: 66 :: c :: iso2022Body cs false from by
            simp [iso2022Body, if_pos hc]]
        refine (escSpaced_cons _ _).mpr ⟨fun _ => by simp, ?_⟩
        refine (escSpaced_cons _ _).mpr ⟨fun hx => by omega, ?_⟩
        refine (escSpaced_cons _ _).mpr ⟨fun hx => by omega, ?_⟩
        exact (escSpaced_cons _ _).mpr ⟨fun hx => absurd hx hc27, ihf⟩
    · have hc128 : ¬ c < 128 := by omega
      have hp27 : c - 0x3041 + 33 ≠ 27 := by omega
      cases jis with
      | true =>
        rw [show iso2022Body (c :: cs) true =
          36 :: (c - 0x3041 + 33) :: iso2022Body cs true from by
            simp [iso2022Body, if_neg hc128]]
        refine (escSpaced_cons _ _).mpr ⟨fun hx => by omega, ?_⟩
        exact (escSpaced_cons _ _).mpr ⟨fun hx => absurd hx hp27, iht⟩
      | false =>
        rw [show iso2022Body (c :: cs) false =
          27 :: 36 :: 66 :: 36 :: (c - 0x3041 + 33) :: iso2022Body cs true from by
            simp [iso2022Body, if_neg hc128]]
        refine (escSpaced_cons _ _).mpr ⟨fun _ => by simp, ?_⟩
        refine (escSpaced_cons _ _).mpr ⟨fun hx => by omega, ?_⟩
        refine (escSpaced_cons _ _).mpr ⟨fun hx => by omega, ?_⟩
        refine (escSpaced_cons _ _).mpr ⟨fun hx => by omega, ?_⟩
        exact (escSpaced_cons _ _).mpr ⟨fun hx => absurd hx hp27, iht⟩

theorem encode_to_jis_x_0208_eq (v : List Nat)
    (h : ∀ c ∈ v, (c < 128 ∧ c ≠ 27) ∨ (0x3041 ≤ c ∧ c ≤ 0x3093)) :
    encode_to_jis_x_0208 v .strict = .ok (iso2022Body v false) := by
  have hrep : ∀ c ∈ v, c < 128 ∨ (0x3041 ≤ c ∧ c ≤ 0x3093) := by
    intro c hc
    rcases h c hc with ⟨h1, _⟩ | h1
    · exact Or.inl h1
    · exact Or.inr h1
  have henc : pyEncode "iso2022_jp" v .strict =
      .ok (iso2022Body v false ++ (if endsJis v false then [27, 40, 66] else [])) := by
    unfold pyEncode lookupCodec
    rw [if_neg (show ¬("iso2022_jp" = "iso8859" ∨ "iso2022_jp" = "latin_1") from by simp),
      if_neg (show ¬("iso2022_jp" = "shift_jis") from by simp),
      if_pos (Or.inl rfl)]
    dsimp only [iso2022Codec]
    rw [iso2022_encS_eq v false 0 hrep]
  unfold encode_to_jis_x_0208
  rw [henc]
  cases hj : endsJis v false with
  | true =>
    simp only [reduceIte]
    have hlen : (iso2022Body v false ++ [27, 40, 66]).length - 3 =
        (iso2022Body v false).length := by simp
    rw [hlen, List.drop_left, List.take_left]
    rw [if_pos (show ([27, 40, 66] : List Nat) = encodings_to_codes default_encoding from rfl)]
  | false =>
    simp only [Bool.false_eq_true, if_false, List.append_nil]
    rw [show encodings_to_codes default_encoding = [27, 40, 66] from rfl]
    rw [if_neg (escSpaced_last3 _ (body_escSpaced v false h))]

theorem split_fragments_head27 (L : List Nat) (hL : L.head? = some 27) :
    split_fragments L = split_fragments_go L := by
  cases L with
  | nil => exact absurd hL (by simp)
  | cons b L' =>
    have hb : b = 27 := by
      rw [List.head?_cons] at hL
      exact Option.some.inj hL
    subst hb
    rw [split_fragments_eq]
    rw [show (27 :: L').takeWhile (fun x => decide (x ≠ 27)) = [] from by
      rw [List.takeWhile_cons]
      simp]
    rw [show (27 :: L').dropWhile (fun x => decide (x ≠ 27)) = 27 :: L' from by
      rw [List.dropWhile_cons]
      simp]
    simp

theorem frag_ascii (restE : List String) (delims : List Nat) (strict : Bool)
    (A : List Nat) (hA : ∀ a ∈ A, a < 128 ∧ a ≠ 27) :
    decode_fragment (27 :: 40 :: 66 :: A) ("iso2022_jp" :: restE) delims strict =
      (.ok A, []) := by
  have hescf : decode_escaped_fragment (27 :: 40 :: 66 :: A) ("iso2022_jp" :: restE)
      delims strict = (.ok A, []) := by
    unfold decode_escaped_fragment
    dsimp only
    have htk : (27 :: 40 :: 66 :: A).take 3 = [27, 40, 66] := rfl
    rw [htk]
    rw [if_neg (show ¬(([27, 40, 66] : List Nat) = [27, 36, 40] ∨
      ([27, 40, 66] : List Nat) = [27, 36, 41]) from by decide)]
    rw [htk]
    rw [show (codes_to_encodings_lookup ([27, 40, 66] : List Nat)).getD "" =
      "iso8859" from rfl]
    rw [if_pos (Or.inr (show "iso8859" = default_encoding from rfl))]
    rw [if_neg (show ¬(("iso8859" : String) ∈ handled_encodings) from by
      simp [handled_encodings])]
    have hdrop : (27 :: 40 :: 66 :: A).drop 3 = A := rfl
    rw [hdrop]
    cases hidx : A.findIdx? (fun ch => decide (ch ∈ delims)) with
    | none =>
      rw [pyDecode_latin A]
    | some idx =>
      have h2 : pyDecode "iso2022_jp" (A.drop idx) = .ok (A.drop idx) :=
        pyDecode_iso2022_ok (iso2022Dec_ascii _ (fun a ha => hA a (List.drop_subset idx A ha)))
      simp only [pyDecode_latin, h2]
      show (Except.ok (A.take idx ++ A.drop idx), ([] : List String)) = (.ok A, [])
      rw [List.take_append_drop]
  unfold decode_fragment
  dsimp only
  rw [show (27 :: 40 :: 66 :: A).head? = some 27 from rfl, if_pos rfl, hescf]

theorem frag_jis (restE : List String) (delims : List Nat) (strict : Bool)
    (H : List Nat) (hH : ∀ x ∈ H, 0x3041 ≤ x ∧ x ≤ 0x3093) :
    decode_fragment (27 :: 36 :: 66 :: jisPairs H) ("iso2022_jp" :: restE) delims strict =
      (.ok H, []) := by
  have hescf : decode_escaped_fragment (27 :: 36 :: 66 :: jisPairs H) ("iso2022_jp" :: restE)
      delims strict = (.ok H, []) := by
    unfold decode_escaped_fragment
    dsimp only
    have htk : (27 :: 36 :: 66 :: jisPairs H).take 3 = [27, 36, 66] := rfl
    rw [htk]
    rw [if_neg (show ¬(([27, 36, 66] : List Nat) = [27, 36, 40] ∨
      ([27, 36, 66] : List Nat) = [27, 36, 41]) from by decide)]
    rw [htk]
    rw [show (codes_to_encodings_lookup ([27, 36, 66] : List Nat)).getD "" =
      "iso2022_jp" from rfl]
    rw [if_pos (Or.inl (List.mem_cons_self _ _))]
    rw [if_pos (show ("iso2022_jp" : String) ∈ handled_encodings from by
      simp [handled_encodings])]
    rw [pyDecode_iso2022_ok (show iso2022Dec (27 :: 36 :: 66 :: jisPairs H) false = some H from by
      rw [show iso2022Dec (27 :: 36 :: 66 :: jisPairs H) false =
        iso2022Dec (jisPairs H) true from rfl]
      exact iso2022Dec_pairs H hH)]
  unfold decode_fragment
  dsimp only
  rw [show (27 :: 36 :: 66 :: jisPairs H).head? = some 27 from rfl, if_pos rfl, hescf]

theorem iso2022_frag_base (restE : List String) (delims : List Nat) (strict : Bool) :
    decode_fragments ("iso2022_jp" :: restE) delims strict
      (split_fragments_go ([27, 36, 66] : List Nat)) = (.ok [], []) := by
  rw [split_fragments_go]
  rw [show ([36, 66] : List Nat).takeWhile (fun x => decide (x ≠ 27)) = [36, 66] from rfl]
  rw [show ([36, 66] : List Nat).dropWhile (fun x => decide (x ≠ 27)) = [] from rfl]
  rw [split_fragments_go]
  rw [decode_fragments]
  have hf := frag_jis restE delims strict [] (by simp)
  simp only [jisPairs] at hf
  rw [hf]
  rfl

theorem iso2022_fragments_decode (restE : List String) (delims : List Nat) (strict : Bool) :
    ∀ (n : Nat) (v : List Nat) (m : Bool), v.length ≤ n →
      (∀ c ∈ v, (c < 128 ∧ c ≠ 27) ∨ (0x3041 ≤ c ∧ c ≤ 0x3093)) →
      modeFits m v →
      decode_fragments ("iso2022_jp" :: restE) delims strict
        (split_fragments_go (iso2022Body v m ++ [27, 36, 66])) = (.ok v, []) := by
  intro n
  induction n with
  | zero =>
    intro v m hlen _hrep _hside
    have hv : v = [] := by
      cases v with
      | nil => rfl
      | cons a as => simp at hlen
    subst hv
    exact iso2022_frag_base restE delims strict
  | succ n ih =>
    intro v m hlen hrep hside
    rcases hside with rfl | ⟨h, t, rfl, hcond⟩
    · exact iso2022_frag_base restE delims strict
    cases m with
    | true =>
      have hh : h < 128 := hcond
      have hsplit : (h :: t).takeWhile (fun c => decide (c < 128)) ++
          (h :: t).dropWhile (fun c => decide (c < 128)) = h :: t :=
        List.takeWhile_append_dropWhile _ _
      set A := (h :: t).takeWhile (fun c => decide (c < 128)) with hAdef
      set w := (h :: t).dropWhile (fun c => decide (c < 128)) with hwdef
      have hAcons : A = h :: t.takeWhile (fun c => decide (c < 128)) := by
        rw [hAdef, List.takeWhile_cons, if_pos (decide_eq_true hh)]
      have hAne : A ≠ [] := by rw [hAcons]; simp
      have hAmem : ∀ a ∈ A, a < 128 ∧ a ≠ 27 := by
        intro a ha
        have ha2 := ha
        rw [hAdef] at ha2
        have ha128 : a < 128 :=
          of_decide_eq_true (List.mem_takeWhile_imp (p := fun c => decide (c < 128)) ha2)
        have hav : a ∈ h :: t := by
          rw [← hsplit]
          exact List.mem_append_left _ ha
        rcases hrep a hav with ⟨_, h27⟩ | hhira
        · exact ⟨ha128, h27⟩
        · omega
      have hwmem : ∀ c ∈ w, (c < 128 ∧ c ≠ 27) ∨ (0x3041 ≤ c ∧ c ≤ 0x3093) := by
        intro c hc
        refine hrep c ?_
        rw [← hsplit]
        exact List.mem_append_right _ hc
      have hwside : modeFits false w := by
        cases hw2 : w with
        | nil => exact Or.inl rfl
        | cons b bs =>
          refine Or.inr ⟨b, bs, rfl, ?_⟩
          have hp := dropWhile_head_false (p := fun c => decide (c < 128)) (h :: t) b bs
            (hwdef.symm.trans hw2)
          exact of_decide_eq_false hp
      have hwlen : w.length ≤ n := by
        have hlens := congrArg List.length hsplit
        rw [List.length_append] at hlens
        have hAlen : 1 ≤ A.length := by rw [hAcons]; simp
        have hvlen : (h :: t).length ≤ n + 1 := hlen
        rw [← hlens] at hvlen
        omega
      have hbody : iso2022Body (h :: t) true = [27, 40, 66] ++ A ++ iso2022Body w false := by
        conv_lhs => rw [← hsplit]
        exact body_ascii_peel A w hAne (fun a ha => (hAmem a ha).1)
      have hhead : (iso2022Body w false ++ [27, 36, 66]).head? = some 27 :=
        body_head27 w false hwside
      have hstop := takeWhile_append_stop (p := fun x => decide (x ≠ 27))
        (40 :: 66 :: A) (iso2022Body w false ++ [27, 36, 66])
        (by
          intro b hb
          rcases List.mem_cons.mp hb with rfl | hb
          · decide
          rcases List.mem_cons.mp hb with rfl | hb
          · decide
          · simpa using (hAmem b hb).2)
        (by
          intro _hne
          cases hL : iso2022Body w false ++ [27, 36, 66] with
          | nil => rw [hL] at hhead; exact absurd hhead (by simp)
          | cons x xs =>
            rw [hL] at hhead
            have hx : x = 27 := by simpa using hhead
            subst hx
            simp)
      obtain ⟨htk, hdw⟩ := hstop
      rw [hbody]
      rw [show ([27, 40, 66] ++ A ++ iso2022Body w false) ++ [27, 36, 66] =
        27 :: ((40 :: 66 :: A) ++ (iso2022Body w false ++ [27, 36, 66])) from by simp]
      rw [split_fragments_go]
      rw [htk, hdw]
      rw [decode_fragments]
      rw [frag_ascii restE delims strict A hAmem]
      dsimp only
      rw [ih w false hwlen hwmem hwside]
      dsimp only
      rw [hsplit]
      rfl
    | false =>
      have hh : 128 ≤ h := by
        have hnot : ¬ h < 128 := hcond
        omega
      have hsplit : (h :: t).takeWhile (fun c => decide (128 ≤ c)) ++
          (h :: t).dropWhile (fun c => decide (128 ≤ c)) = h :: t :=
        List.takeWhile_append_dropWhile _ _
      set H := (h :: t).takeWhile (fun c => decide (128 ≤ c)) with hHdef
      set w := (h :: t).dropWhile (fun c => decide (128 ≤ c)) with hwdef
      have hHcons : H = h :: t.takeWhile (fun c => decide (128 ≤ c)) := by
        rw [hHdef, List.takeWhile_cons, if_pos (decide_eq_true hh)]
      have hHne : H ≠ [] := by rw [hHcons]; simp
      have hHmem : ∀ x ∈ H, 0x3041 ≤ x ∧ x ≤ 0x3093 := by
        intro x hx
        have hx2 := hx
        rw [hHdef] at hx2
        have hx128 : 128 ≤ x :=
          of_decide_eq_true (List.mem_takeWhile_imp (p := fun c => decide (128 ≤ c)) hx2)
        have hxv : x ∈ h :: t := by
          rw [← hsplit]
          exact List.mem_append_left _ hx
        rcases hrep x hxv with ⟨hlt, _⟩ | hhira
        · omega
        · exact hhira
      have hwmem : ∀ c ∈ w, (c < 128 ∧ c ≠ 27) ∨ (0x3041 ≤ c ∧ c ≤ 0x3093) := by
        intro c hc
        refine hrep c ?_
        rw [← hsplit]
        exact List.mem_append_right _ hc
      have hwside : modeFits true w := by
        cases hw2 : w with
        | nil => exact Or.inl rfl
        | cons b bs =>
          refine Or.inr ⟨b, bs, rfl, ?_⟩
          have hp := dropWhile_head_false (p := fun c => decide (128 ≤ c)) (h :: t) b bs
            (hwdef.symm.trans hw2)
          have hnot := of_decide_eq_false hp
          show b < 128
          omega
      have hwlen : w.length ≤ n := by
        have hlens := congrArg List.length hsplit
        rw [List.length_append] at hlens
        have hHlen : 1 ≤ H.length := by rw [hHcons]; simp
        have hvlen : (h :: t).length ≤ n + 1 := hlen
        rw [← hlens] at hvlen
        omega
      have hbody : iso2022Body (h :: t) false =
          [27, 36, 66] ++ jisPairs H ++ iso2022Body w true := by
        conv_lhs => rw [← hsplit]
        exact body_hira_peel H w hHne hHmem
      have hhead : (iso2022Body w true ++ [27, 36, 66]).head? = some 27 :=
        body_head27 w true hwside
      have hstop := takeWhile_append_stop (p := fun x => decide (x ≠ 27))
        (36 :: 66 :: jisPairs H) (iso2022Body w true ++ [27, 36, 66])
        (by
          intro b hb
          rcases List.mem_cons.mp hb with rfl | hb
          · decide
          rcases List.mem_cons.mp hb with rfl | hb
          · decide
          · have := jisPairs_mem H (fun x hx => (hHmem x hx).1) b hb
            rcases this with rfl | hge
            · decide
            · simp only [decide_eq_true_eq]
              omega)
        (by
          intro _hne
          cases hL : iso2022Body w true ++ [27, 36, 66] with
          | nil => rw [hL] at hhead; exact absurd hhead (by simp)
          | cons x xs =>
            rw [hL] at hhead
            have hx : x = 27 := by simpa using hhead
            subst hx
            simp)
      obtain ⟨htk, hdw⟩ := hstop
      rw [hbody]
      rw [show ([27, 36, 66] ++ jisPairs H ++ iso2022Body w true) ++ [27, 36, 66] =
        27 :: ((36 :: 66 :: jisPairs H) ++ (iso2022Body w true ++ [27, 36, 66])) from by simp]
      rw [split_fragments_go]
      rw [htk, hdw]
      rw [decode_fragments]
      rw [frag_jis restE delims strict H hHmem]
      dsimp only
      rw [ih w true hwlen hwmem hwside]
      dsimp only
      rw [hsplit]
      rfl

theorem iso2022_decode_full (restE : List String) (delims : List Nat) (strict : Bool)
    (v : List Nat) (hrep : ∀ c ∈ v, (c < 128 ∧ c ≠ 27) ∨ (0x3041 ≤ c ∧ c ≤ 0x3093)) :
    decode_string (iso2022Body v false ++ [27, 36, 66]) ("iso2022_jp" :: restE) delims strict
      = (.ok v, []) := by
  unfold decode_string
  rw [if_pos (show (27 : Nat) ∈ iso2022Body v false ++ [27, 36, 66] from
    List.mem_append.mpr (Or.inr (by decide)))]
  set A := v.takeWhile (fun c => decide (c < 128)) with hAdef
  set w := v.dropWhile (fun c => decide (c < 128)) with hwdef
  have hsplit : A ++ w = v := List.takeWhile_append_dropWhile _ _
  have hAmem : ∀ a ∈ A, a < 128 ∧ a ≠ 27 := by
    intro a ha
    have ha2 := ha
    rw [hAdef] at ha2
    have ha128 : a < 128 :=
      of_decide_eq_true (List.mem_takeWhile_imp (p := fun c => decide (c < 128)) ha2)
    have hav : a ∈ v := by
      rw [← hsplit]
      exact List.mem_append_left _ ha
    rcases hrep a hav with ⟨_, h27⟩ | hhira
    · exact ⟨ha128, h27⟩
    · omega
  have hwmem : ∀ c ∈ w, (c < 128 ∧ c ≠ 27) ∨ (0x3041 ≤ c ∧ c ≤ 0x3093) := by
    intro c hc
    refine hrep c ?_
    rw [← hsplit]
    exact List.mem_append_right _ hc
  have hwside : modeFits false w := by
    cases hw2 : w with
    | nil => exact Or.inl rfl
    | cons b bs =>
      refine Or.inr ⟨b, bs, rfl, ?_⟩
      have hp := dropWhile_head_false (p := fun c => decide (c < 128)) v b bs
        (hwdef.symm.trans hw2)
      exact of_decide_eq_false hp
  have hbody : iso2022Body v false = A ++ iso2022Body w false := by
    conv_lhs => rw [← hsplit]
    exact body_ascii_run A w (fun a ha => (hAmem a ha).1)
  have hhead : (iso2022Body w false ++ [27, 36, 66]).head? = some 27 :=
    body_head27 w false hwside
  by_cases hA : A = []
  · have hv : v = w := by rw [← hsplit, hA]; rfl
    rw [hbody, hA, List.nil_append]
    rw [split_fragments_head27 _ hhead]
    rw [iso2022_fragments_decode restE delims strict w.length w false le_rfl hwmem hwside]
    rw [hv]
  · obtain ⟨a, A', hAeq⟩ := List.exists_cons_of_ne_nil hA
    have hstop := takeWhile_append_stop (p := fun x => decide (x ≠ 27))
      A (iso2022Body w false ++ [27, 36, 66])
      (fun b hb => by simpa using (hAmem b hb).2)
      (by
        intro _hne
        cases hL : iso2022Body w false ++ [27, 36, 66] with
        | nil => rw [hL] at hhead; exact absurd hhead (by simp)
        | cons x xs =>
          rw [hL] at hhead
          have hx : x = 27 := by simpa using hhead
          subst hx
          simp)
    obtain ⟨htk, hdw⟩ := hstop
    rw [hbody, List.append_assoc]
    rw [split_fragments_eq]
    rw [htk, hdw]
    rw [if_neg hA]
    rw [List.singleton_append]
    rw [decode_fragments]
    have hfragA : decode_fragment A ("iso2022_jp" :: restE) delims strict = (.ok A, []) := by
      unfold decode_fragment
      dsimp only
      rw [if_neg (show ¬(A.head? = some 27) from by
        rw [hAeq]
        simp only [List.head?_cons]
        intro hcontra
        exact (hAmem a (by rw [hAeq]; simp)).2 (Option.some.inj hcontra))]
      rw [pyDecode_iso2022_ok (iso2022Dec_ascii A hAmem)]
    rw [hfragA]
    dsimp only
    rw [iso2022_fragments_decode restE delims strict w.length w false le_rfl hwmem hwside]
    dsimp only
    rw [hsplit]
    rfl

theorem iso2022_encode_full (restE : List String) (strict : Bool) (v : List Nat)
    (h : ∀ c ∈ v, (c < 128 ∧ c ≠ 27) ∨ (0x3041 ≤ c ∧ c ≤ 0x3093)) :
    encode_string v ("iso2022_jp" :: restE) strict =
      (.ok (iso2022Body v false ++ [27, 36, 66]), []) := by
  unfold encode_string encode_string_go
  have himpl : encode_string_impl v "iso2022_jp" .strict = .ok (iso2022Body v false) := by
    unfold encode_string_impl
    rw [if_neg (show ¬(("iso2022_jp" : String) = "shift_jis") from by simp)]
    rw [if_pos (Or.inl rfl)]
    exact encode_to_jis_x_0208_eq v h
  rw [himpl]
  dsimp only
  rw [if_neg (show ¬(0 < 0 ∧ ("iso2022_jp" : String) ∉ handled_encodings) from by simp)]
  rw [if_pos (show ("iso2022_jp" : String) ∈ need_tail_escape_sequence_encodings from by
    simp [need_tail_escape_sequence_encodings])]
  rw [show get_escape_sequence_to_alphanumeric ("iso2022_jp" :: restE) = [27, 36, 66] from by
    unfold get_escape_sequence_to_alphanumeric
    rw [show ("iso2022_jp" :: restE).headD "" = "iso2022_jp" from rfl]
    rw [if_neg (show ¬(("iso2022_jp" : String) = "shift_jis") from by simp)]
    rfl]

theorem latin_encode_full (e0 : String) (he : e0 = "iso8859" ∨ e0 = "latin_1")
    (restE : List String) (strict : Bool) (v : List Nat) (h : ∀ c ∈ v, c < 256) :
    encode_string v (e0 :: restE) strict = (.ok v, []) := by
  have hlook : lookupCodec e0 = some latin1Codec := by
    unfold lookupCodec
    rw [if_pos he]
  have himpl : encode_string_impl v e0 .strict = .ok v := by
    unfold encode_string_impl
    rw [if_neg (show ¬(e0 = "shift_jis") from by
      rcases he with rfl | rfl <;> simp)]
    rw [if_neg (show ¬(e0 = "iso2022_jp" ∨ e0 = "iso-2022-jp") from by
      rcases he with rfl | rfl <;> simp)]
    unfold pyEncode
    rw [hlook]
    dsimp only [latin1Codec]
    rw [latin1_encS_ok v 0 h]
  unfold encode_string encode_string_go
  rw [himpl]
  dsimp only
  rw [if_neg (show ¬(0 < 0 ∧ e0 ∉ handled_encodings) from by simp)]
  rw [if_neg (show e0 ∉ need_tail_escape_sequence_encodings from by
    rcases he with rfl | rfl <;> simp [need_tail_escape_sequence_encodings])]

theorem latin_decode_full (e0 : String) (he : e0 = "iso8859" ∨ e0 = "latin_1")
    (restE : List String) (delims : List Nat) (strict : Bool) (v : List Nat)
    (hesc : (27 : Nat) ∉ v) :
    decode_string v (e0 :: restE) delims strict = (.ok v, []) := by
  unfold decode_string
  rw [if_neg hesc]
  have hlook : lookupCodec e0 = some latin1Codec := by
    unfold lookupCodec
    rw [if_pos he]
  dsimp only
  rw [hlook]
  rfl

theorem sjis_encode_full (restE : List String) (strict : Bool) (v : List Nat)
    (h : ∀ c ∈ v, c < 128 ∨ (0xFF61 ≤ c ∧ c ≤ 0xFF9F)) :
    encode_string v ("shift_jis" :: restE) strict = (.ok (v.map jisX0201Byte), []) := by
  have himpl : encode_string_impl v "shift_jis" .strict = .ok (v.map jisX0201Byte) := by
    unfold encode_string_impl
    rw [if_pos rfl]
    unfold encode_to_jis_x_0201
    have hgo := jis0201_go_strict_single v.length v 0 [] v.length
      (fun c hc => sjis_single_byte (h c hc))
    simpa using hgo
  unfold encode_string encode_string_go
  rw [himpl]
  dsimp only
  rw [if_neg (show ¬(0 < 0 ∧ ("shift_jis" : String) ∉ handled_encodings) from by simp)]
  rw [if_neg (show ("shift_jis" : String) ∉ need_tail_escape_sequence_encodings from by
    simp [need_tail_escape_sequence_encodings])]

theorem sjis_decode_full (restE : List String) (delims : List Nat) (strict : Bool)
    (v : List Nat) (h : ∀ c ∈ v, (c < 128 ∧ c ≠ 27) ∨ (0xFF61 ≤ c ∧ c ≤ 0xFF9F)) :
    decode_string (v.map jisX0201Byte) ("shift_jis" :: restE) delims strict = (.ok v, []) := by
  have h27 : (27 : Nat) ∉ v.map jisX0201Byte := by
    intro hc
    obtain ⟨c, hc1, hc2⟩ := List.mem_map.mp hc
    rcases h c hc1 with ⟨hlt, hne⟩ | hk
    · rw [jisX0201Byte_of_single (sjisEncChar_ascii hlt)] at hc2
      exact hne hc2
    · rw [jisX0201Byte_of_single (sjisEncChar_kata hk.1 hk.2)] at hc2
      omega
  unfold decode_string
  rw [if_neg h27]
  dsimp only
  rw [show lookupCodec "shift_jis" = some sjisCodec from by
    unfold lookupCodec
    rw [if_neg (show ¬(("shift_jis" : String) = "iso8859" ∨ ("shift_jis" : String) = "latin_1")
      from by simp), if_pos rfl]]
  dsimp only [sjisCodec]
  rw [sjisDec_map v (fun c hc => by
    rcases h c hc with ⟨h1, _⟩ | h1
    · exact Or.inl h1
    · exact Or.inr h1)]

/-- C1 (corrected): the round trip decode ∘ encode is the identity for a
non-empty codec list headed by one of the modelled codecs, on text whose
characters are all representable in that first codec, provided the text
contains no ESC character (U+001B); the unrestricted claim fails because a
latin-1-representable ESC character survives encoding and then triggers
the escape-sequence path of the decoder (see the counterexample). -/
theorem C1_encode_decode_round_trip
    (value delims : List Nat) (strict : Bool) (e0 : String) (restE : List String)
    (he : e0 = "iso8859" ∨ e0 = "latin_1" ∨ e0 = "shift_jis" ∨ e0 = "iso2022_jp")
    (hrep : ∀ c ∈ value, representableChar e0 c = true)
    (hesc : (27 : Nat) ∉ value) :
    ∃ bs, encode_string value (e0 :: restE) strict = (.ok bs, []) ∧
      (decode_string bs (e0 :: restE) delims strict).1 = .ok value := by
  have hne27 : ∀ c ∈ value, c ≠ 27 := by
    intro c hc hc27
    exact hesc (hc27 ▸ hc)
  rcases he with rfl | rfl | rfl | rfl
  · have h256 : ∀ c ∈ value, c < 256 := by
      intro c hc
      have hr := hrep c hc
      simpa [representableChar] using hr
    exact ⟨value, latin_encode_full "iso8859" (Or.inl rfl) restE strict value h256,
      by rw [latin_decode_full "iso8859" (Or.inl rfl) restE delims strict value hesc]⟩
  · have h256 : ∀ c ∈ value, c < 256 := by
      intro c hc
      have hr := hrep c hc
      simpa [representableChar] using hr
    exact ⟨value, latin_encode_full "latin_1" (Or.inr rfl) restE strict value h256,
      by rw [latin_decode_full "latin_1" (Or.inr rfl) restE delims strict value hesc]⟩
  · have hk : ∀ c ∈ value, c < 128 ∨ (0xFF61 ≤ c ∧ c ≤ 0xFF9F) := by
      intro c hc
      have hr := hrep c hc
      simpa [representableChar] using hr
    have hk2 : ∀ c ∈ value, (c < 128 ∧ c ≠ 27) ∨ (0xFF61 ≤ c ∧ c ≤ 0xFF9F) := by
      intro c hc
      rcases hk c hc with h1 | h1
      · exact Or.inl ⟨h1, hne27 c hc⟩
      · exact Or.inr h1
    exact ⟨value.map jisX0201Byte, sjis_encode_full restE strict value hk,
      by rw [sjis_decode_full restE delims strict value hk2]⟩
  · have hk : ∀ c ∈ value, c < 128 ∨ (0x3041 ≤ c ∧ c ≤ 0x3093) := by
      intro c hc
      have hr := hrep c hc
      simpa [representableChar] using hr
    have hk2 : ∀ c ∈ value, (c < 128 ∧ c ≠ 27) ∨ (0x3041 ≤ c ∧ c ≤ 0x3093) := by
      intro c hc
      rcases hk c hc with h1 | h1
      · exact Or.inl ⟨h1, hne27 c hc⟩
      · exact Or.inr h1
    exact ⟨iso2022Body value false ++ [27, 36, 66],
      iso2022_encode_full restE strict value hk2,
      by rw [iso2022_decode_full restE delims strict value hk2]⟩

/-- C1 witness: the hiragana character U+3042 with the codec list
[iso2022_jp] encodes successfully and decodes back to itself. -/
theorem C1_witness :
    ∃ bs, encode_string [0x3042] ["iso2022_jp"] false = (.ok bs, []) ∧
      (decode_string bs ["iso2022_jp"] [13] false).1 = .ok [0x3042] :=
  C1_encode_decode_round_trip [0x3042] [13] false "iso2022_jp" []
    (Or.inr (Or.inr (Or.inr rfl))) (by decide) (by decide)

/-- C1 counterexample to the unrestricted claim: the text U+001B U+002D
U+0041 consists only of latin-1-representable characters and encodes to
the identical bytes under [iso8859, latin_1], but those bytes start with
the escape byte, are consumed as a latin-1 escape sequence by the decoder,
and decode to the empty text, not to the original. -/
theorem C1_counterexample :
    encode_string [27, 45, 65] ["iso8859", "latin_1"] false = (.ok [27, 45, 65], []) ∧
    (decode_string [27, 45, 65] ["iso8859", "latin_1"] [13] false).1 = .ok [] ∧
    (Except.ok ([] : List Nat) : Except PyErr (List Nat)) ≠ .ok [27, 45, 65] := by
  decide

end PydicomCharset
